import Mathlib

/-!
Verification of the translation-pipeline gateway (mt-gateway and
format-service) against its natural-language specification.

All text is modelled as `List Char` (ASCII character classes, matching the
ASCII regex classes used in the source).  Each definition below is a shallow
embedding of a concrete Python function from the repository; the source
location is given in the doc comment.  External collaborators (the MT model
backends, the `langdetect` library, the md5 digest, the Redis store) are
parameters of the definitions, exactly as they are opaque collaborators of
the code under test.
-/

deriving instance DecidableEq for Except

namespace MTGateway

/-- Abbreviation used for embedded Python strings. -/
def str (s : String) : List Char := s.toList

/-- Python `\s` on ASCII: space, tab, newline, carriage return,
    vertical tab, form feed. -/
def isWS (c : Char) : Bool :=
  c = ' ' || c = '\t' || c = '\n' || c = '\r' || c = '\x0b' || c = '\x0c'

/-- Regex class `[a-z]`. -/
def isLowerAZ (c : Char) : Bool := 'a' ≤ c && c ≤ 'z'

/-- Regex class `[A-Z]`. -/
def isUpperAZ (c : Char) : Bool := 'A' ≤ c && c ≤ 'Z'

/-- Regex class `\d` (ASCII). -/
def isDigit09 (c : Char) : Bool := '0' ≤ c && c ≤ '9'

/-- Regex class `[,.;:!?]` used by `normalize_text`'s punctuation-spacing
    substitution (src/services/mt-gateway/src/utils.py line 29). -/
def isPunctN (c : Char) : Bool :=
  c = ',' || c = '.' || c = ';' || c = ':' || c = '!' || c = '?'

/-- Regex class `[.!?]` of sentence terminators
    (src/services/format-service/src/utils.py line 360). -/
def isTerm (c : Char) : Bool := c = '.' || c = '!' || c = '?'

/-- Regex class `\w` (ASCII): letters, digits, underscore. -/
def isWordChar (c : Char) : Bool :=
  isLowerAZ c || isUpperAZ c || isDigit09 c || c = '_'

/-- Python `str.strip()`: remove leading and trailing whitespace. -/
def stripWS (cs : List Char) : List Char :=
  ((cs.dropWhile isWS).reverse.dropWhile isWS).reverse

/-- One whitespace run replaced by a single space; auxiliary state `inRun`
    records that the previous character was whitespace (so further whitespace
    is dropped).  Together with `stripWS` this embeds Python
    `re.sub(r'\s+', ' ', text.strip())`. -/
def squeezeWS : Bool → List Char → List Char
  | _, [] => []
  | inRun, c :: cs =>
    if isWS c then
      if inRun then squeezeWS true cs else ' ' :: squeezeWS true cs
    else c :: squeezeWS false cs

/-- `re.sub(r'\s+', ' ', text.strip())` from `normalize_text`
    (src/services/mt-gateway/src/utils.py lines 21 and 30). -/
def collapseWS (cs : List Char) : List Char := squeezeWS false (stripWS cs)

/-- `re.sub(p+q, r'\1 \2', text)` for a two-character-class pattern: the
    scan inserts a space between an adjacent pair `(a, b)` with `p a` and
    `q b` and resumes after the pair (Python `re.sub` non-overlapping
    scan).  Embeds the camelCase / letter-digit repairs of `normalize_text`
    (src/services/mt-gateway/src/utils.py lines 24-26). -/
def subPair (p q : Char → Bool) : List Char → List Char
  | [] => []
  | [a] => [a]
  | a :: b :: rest =>
    if p a && q b then a :: ' ' :: b :: subPair p q rest
    else a :: subPair p q (b :: rest)

/-- `re.sub(r'\s*([,.;:!?])\s*', r'\1 ', text)`
    (src/services/mt-gateway/src/utils.py line 29), as a character-level
    state machine.  `afterP` means a punctuation mark was just emitted, so
    the following whitespace run belongs to the match and is dropped;
    `pend` buffers (in reverse) a whitespace run whose classification
    (separator before punctuation, or ordinary text) depends on the next
    non-whitespace character. -/
def punctAux : Bool → List Char → List Char → List Char
  | afterP, pend, [] => if afterP then [] else pend.reverse
  | afterP, pend, c :: cs =>
    if isWS c then
      if afterP then punctAux true [] cs
      else punctAux false (c :: pend) cs
    else if isPunctN c then c :: ' ' :: punctAux true [] cs
    else (if afterP then [] else pend.reverse) ++ c :: punctAux false [] cs

/-- The punctuation-spacing substitution applied from the initial state. -/
def punctSub (cs : List Char) : List Char := punctAux false [] cs

/-- `normalize_text` (src/services/mt-gateway/src/utils.py lines 15-32):
    empty guard, whitespace collapse, camelCase split, digit-uppercase
    split, lowercase-digit split, punctuation spacing, final whitespace
    collapse. -/
def normalize_text (cs : List Char) : List Char :=
  if cs = [] then cs
  else
    collapseWS (punctSub (subPair isLowerAZ isDigit09 (subPair isDigit09 isUpperAZ
      (subPair isLowerAZ isUpperAZ (collapseWS cs)))))

/-- Python `str.split()` (no argument): split on whitespace runs, dropping
    empty pieces.  `cur` buffers the current word in reverse.  Used by
    `split_long_segment` (src/services/format-service/src/utils.py line 429). -/
def pysplitAux : List Char → List Char → List (List Char)
  | cur, [] => if cur.isEmpty then [] else [cur.reverse]
  | cur, c :: cs =>
    if isWS c then
      if cur.isEmpty then pysplitAux [] cs else cur.reverse :: pysplitAux [] cs
    else pysplitAux (c :: cur) cs

/-- Python `segment.split()`. -/
def pysplit (cs : List Char) : List (List Char) := pysplitAux [] cs

/-- Python `' '.join(parts)`. -/
def joinSp : List (List Char) → List Char
  | [] => []
  | [w] => w
  | w :: ws => w ++ ' ' :: joinSp ws

/-- Loop body of `split_long_segment`
    (src/services/format-service/src/utils.py lines 433-446).  The state is
    `(parts, current_part, current_length)`. -/
def slsStep (maxLen : Nat) (st : List (List Char) × List (List Char) × Nat)
    (word : List Char) : List (List Char) × List (List Char) × Nat :=
  let parts := st.1
  let cur := st.2.1
  let curLen := st.2.2
  if curLen + (word.length + 1) ≤ maxLen then
    (parts, cur ++ [word], curLen + (word.length + 1))
  else if cur.isEmpty then
    (parts ++ [word], cur, curLen)
  else
    (parts ++ [joinSp cur], [word], word.length)

/-- `split_long_segment` (src/services/format-service/src/utils.py
    lines 426-451): greedy word-boundary re-split of an over-long segment. -/
def split_long_segment (segment : List Char) (maxLen : Nat) : List (List Char) :=
  let st := (pysplit segment).foldl (slsStep maxLen) ([], [], 0)
  if st.2.1.isEmpty then st.1 else st.1 ++ [joinSp st.2.1]

/-- Loop body of `apply_length_constraints`
    (src/services/format-service/src/utils.py lines 410-422).  The
    accumulator holds the constrained list in reverse, so the Python
    `constrained[-1] += " " + segment` backward merge is a head update. -/
def alcStep (minLen maxLen : Nat) (acc : List (List Char)) (segment : List Char) :
    List (List Char) :=
  if segment.length < minLen then
    match acc with
    | [] => [segment]
    | last :: more => (last ++ ' ' :: segment) :: more
  else if maxLen < segment.length then (split_long_segment segment maxLen).reverse ++ acc
  else segment :: acc

/-- `apply_length_constraints` (src/services/format-service/src/utils.py
    lines 406-424). -/
def apply_length_constraints (segments : List (List Char)) (minLen maxLen : Nat) :
    List (List Char) :=
  (segments.foldl (alcStep minLen maxLen) []).reverse

/-- Loop body of `merge_short_segments`
    (src/services/format-service/src/utils.py lines 461-469); state is
    `(merged, current_segment)`. -/
def mssStep (threshold : Nat) (acc : List (List Char) × List Char) (nxt : List Char) :
    List (List Char) × List Char :=
  if acc.2.length < threshold then (acc.1, acc.2 ++ ' ' :: nxt)
  else (acc.1 ++ [acc.2], nxt)

/-- `merge_short_segments` (src/services/format-service/src/utils.py
    lines 453-474). -/
def merge_short_segments (segments : List (List Char)) (threshold : Nat) :
    List (List Char) :=
  match segments with
  | [] => []
  | s0 :: rest =>
    let fin := rest.foldl (mssStep threshold) ([], s0)
    fin.1 ++ [fin.2]

/-- `re.split(r'[.!?]+\s+', text)` from `segment_by_sentences`
    (src/services/format-service/src/utils.py lines 360-361), as a
    character-level state machine.  `acc` is the current piece in reverse;
    `pend` is a pending run of sentence terminators (in reverse) whose
    classification depends on the next character (whitespace after the run
    completes a separator match, anything else returns the run to the
    piece); `sep` means the scan is inside the whitespace tail of a
    separator match. -/
def sentAux : List Char → List Char → Bool → List Char → List (List Char)
  | acc, pend, _, [] => [(pend ++ acc).reverse]
  | acc, pend, sep, c :: cs =>
    if sep && isWS c then sentAux acc pend true cs
    else if isTerm c then sentAux acc (c :: pend) false cs
    else if isWS c && !pend.isEmpty then acc.reverse :: sentAux [] [] true cs
    else sentAux (c :: (pend ++ acc)) [] false cs

/-- `re.split(r'[.!?]+\s+', text)` applied from the initial scan state. -/
def splitSent (cs : List Char) : List (List Char) := sentAux [] [] false cs

/-- `segment_by_sentences` (src/services/format-service/src/utils.py
    lines 357-370): split on terminator runs followed by whitespace, strip
    each piece, drop empties. -/
def segment_by_sentences (cs : List Char) : List (List Char) :=
  ((splitSent cs).map stripWS).filter (fun s => !s.isEmpty)

/-- Prepend `pre` to the first piece of a split result. -/
def consHead (pre : List Char) : List (List Char) → List (List Char)
  | [] => [pre]
  | p :: ps => (pre ++ p) :: ps

/-- Python `text.split('\n\n')` used by `segment_by_paragraphs`
    (src/services/format-service/src/utils.py line 374). -/
def splitParas : List Char → List (List Char)
  | [] => [[]]
  | '\n' :: '\n' :: rest => [] :: splitParas rest
  | c :: rest => consHead [c] (splitParas rest)

/-- `segment_by_paragraphs` (src/services/format-service/src/utils.py
    lines 372-382). -/
def segment_by_paragraphs (cs : List Char) : List (List Char) :=
  ((splitParas cs).map stripWS).filter (fun s => !s.isEmpty)

/-- Python `text.split('\n')` used for the `line` rule
    (src/services/format-service/src/main caller of utils, line 330 of
    utils.py). -/
def splitLines : List Char → List (List Char)
  | [] => [[]]
  | '\n' :: rest => [] :: splitLines rest
  | c :: rest => consHead [c] (splitLines rest)

/-- Segmentation rules checked by `segment_text`; the `custom` rule (an
    arbitrary user regex) is outside the embedding and not needed by any
    claim. -/
inductive SegRule
  | sentence
  | paragraph
  | line
deriving DecidableEq

/-- The `options` object of `segment_text`: `none` fields model absent
    attributes (Python `hasattr`), `getD` models `getattr` defaults. -/
structure SegOptions where
  rule : Option SegRule := none
  min_segment_length : Option Nat := none
  max_segment_length : Option Nat := none
  merge_short : Bool := false
deriving DecidableEq

/-- `segment_text` (src/services/format-service/src/utils.py lines
    316-355): empty guard, rule dispatch (default: sentences), optional
    length constraints (defaults 10 and 500), optional short-segment merge
    with threshold 50, final strip-and-drop-empties pass. -/
def segment_text (cs : List Char) (options : Option SegOptions) : List (List Char) :=
  if (stripWS cs).isEmpty then []
  else
    let sentences := segment_by_sentences cs
    let sentences :=
      match options with
      | none => sentences
      | some o =>
        let s1 :=
          match o.rule with
          | some SegRule.paragraph => segment_by_paragraphs cs
          | some SegRule.line => splitLines cs
          | _ => sentences
        let s2 :=
          if o.min_segment_length.isSome || o.max_segment_length.isSome then
            apply_length_constraints s1 (o.min_segment_length.getD 10)
              (o.max_segment_length.getD 500)
          else s1
        if o.merge_short then merge_short_segments s2 50 else s2
    (sentences.map stripWS).filter (fun s => !s.isEmpty)

/-- The string `f"{provider}:{src}:{tgt}:{text}"` hashed by `cache_key`
    (src/services/mt-gateway/src/main.py line 143). -/
def cacheContent (provider src tgt text : List Char) : List Char :=
  provider ++ ':' :: (src ++ ':' :: (tgt ++ ':' :: text))

/-- `cache_key` (src/services/mt-gateway/src/main.py lines 140-144):
    namespace prefix `mt:` plus the first 16 hex characters of the md5
    digest of `provider:src:tgt:text`.  The md5 digest itself is an external
    primitive, taken as the parameter `digest`. -/
def cache_key (digest : List Char → List Char) (text src tgt provider : List Char) :
    List Char :=
  str "mt:" ++ (digest (cacheContent provider src tgt text)).take 16

/-- `validate_language_pair` (src/services/mt-gateway/src/utils.py lines
    62-75): membership of `(src, tgt)` in the provider's supported list. -/
def validate_language_pair (supported : List (List Char × List Char))
    (src tgt : List Char) : Bool :=
  supported.any (fun p => p.1 == src && p.2 == tgt)

/-- Response model of `POST /translate`
    (src/services/mt-gateway/src/models.py lines 29-35). -/
structure TranslationResponseM where
  text : List Char
  src : List Char
  tgt : List Char
  provider : List Char
  cached : Bool
deriving DecidableEq

/-- Detail string of the unsupported-language-pair `HTTPException(400)`
    (src/services/mt-gateway/src/main.py lines 183-186 and 250-253). -/
def unsupportedDetail (src tgt : List Char) : List Char :=
  str "Language pair " ++ src ++ str "->" ++ tgt ++ str " not supported"

/-- Python `str(e)` for a starlette `HTTPException`:
    `f"{status_code}: {detail}"`. -/
def strOfExc (e : Nat × List Char) : List Char :=
  (toString e.1).toList ++ str ": " ++ e.2

/-- The `try:` body of the `POST /translate` handler `translate_text`
    (src/services/mt-gateway/src/main.py lines 180-232): validate the
    language pair (raise 400), probe the cache, else translate the
    normalized text and respond.  `redis = none` models an unavailable
    cache (`redis_client is None`); `r key` models `redis_client.get`.
    The second component records the texts passed to `provider.translate`
    (empty: the backend was never called).  The post-response `setex` cache
    store and the Prometheus counters have no effect on the response and
    are not modelled. -/
def translate_text_body (supported : List (List Char × List Char))
    (redis : Option (List Char → Option (List Char)))
    (tr : List Char → List Char) (digest : List Char → List Char)
    (providerName : List Char) (text src tgt : List Char) :
    Except (Nat × List Char) TranslationResponseM × List (List Char) :=
  if !validate_language_pair supported src tgt then
    (Except.error (400, unsupportedDetail src tgt), [])
  else
    match redis with
    | some r =>
      match r (cache_key digest text src tgt providerName) with
      | some cached => (Except.ok ⟨cached, src, tgt, providerName, true⟩, [])
      | none =>
        (Except.ok ⟨tr (normalize_text text), src, tgt, providerName, false⟩,
          [normalize_text text])
    | none =>
      (Except.ok ⟨tr (normalize_text text), src, tgt, providerName, false⟩,
        [normalize_text text])

/-- The full `translate_text` endpoint: the `except Exception` clause
    (src/services/mt-gateway/src/main.py lines 234-236) catches every
    exception raised in the body — including the handler's own
    `HTTPException(400)` — and re-raises `HTTPException(500, str(e))`. -/
def translate_text_endpoint (supported : List (List Char × List Char))
    (redis : Option (List Char → Option (List Char)))
    (tr : List Char → List Char) (digest : List Char → List Char)
    (providerName : List Char) (text src tgt : List Char) :
    Except (Nat × List Char) TranslationResponseM × List (List Char) :=
  let b := translate_text_body supported redis tr digest providerName text src tgt
  match b.1 with
  | Except.ok r => (Except.ok r, b.2)
  | Except.error e => (Except.error (500, strOfExc e), b.2)

/-- Pydantic `BatchTranslationRequest.validate_segments`
    (src/services/mt-gateway/src/models.py lines 43-58): reject an empty
    list, strip every segment and drop the empty ones, reject if nothing
    remains or a stripped segment exceeds 5000 characters; the handler
    receives the filtered list. -/
def filteredSegs (v : List (List Char)) : List (List Char) :=
  (v.map stripWS).filter (fun s => !s.isEmpty)

def validate_segments (v : List (List Char)) : Except (List Char) (List (List Char)) :=
  if v.isEmpty then Except.error (str "Segments list cannot be empty")
  else
    let filtered := filteredSegs v
    if filtered.isEmpty then Except.error (str "All segments are empty")
    else if filtered.any (fun s => 5000 < s.length) then
      Except.error (str "Segment too long (max 5000 chars)")
    else Except.ok filtered

/-- Response model of `POST /translate/batch`
    (src/services/mt-gateway/src/models.py lines 69-76).  `segments`
    entries are `Option`s because the handler pre-fills misses with `None`
    (main.py line 281); an entry still `none` after the scatter step could
    not be serialized by the declared response model. -/
structure BatchTranslationResponseM where
  segments : List (Option (List Char))
  src : List Char
  tgt : List Char
  provider : List Char
  count : Nat
  cached_count : Nat
deriving DecidableEq

/-- The cache-probing loop of `translate_batch`
    (src/services/mt-gateway/src/main.py lines 269-283), started at index
    `i`: returns `(translations, uncached_indices, uncached_texts)` —
    cached values at hit positions and `none` placeholders at misses, the
    absolute indices of the misses, and their normalized texts. -/
def partitionCacheAux (lookup : List Char → Option (List Char)) :
    List (List Char) → Nat →
    List (Option (List Char)) × List Nat × List (List Char)
  | [], _ => ([], [], [])
  | t :: ts, i =>
    let rest := partitionCacheAux lookup ts (i + 1)
    match lookup t with
    | some c => (some c :: rest.1, rest.2.1, rest.2.2)
    | none => (none :: rest.1, i :: rest.2.1, normalize_text t :: rest.2.2)

/-- The scatter loop `for idx, translation in zip(uncached_indices,
    translated_batch): translations[idx] = translation`
    (src/services/mt-gateway/src/main.py lines 293-294). -/
def scatter : List (Option (List Char)) → List Nat → List (List Char) →
    List (Option (List Char))
  | tr, [], _ => tr
  | tr, _, [] => tr
  | tr, i :: is, v :: vs => scatter (tr.set i (some v)) is vs

/-- The per-segment cache probe of the batch handler: when Redis is
    connected, `redis_client.get(cache_key(text, src, tgt, provider))`
    (src/services/mt-gateway/src/main.py lines 270-275); when it is not,
    every segment is a miss (the `if redis_client:` guard falls through). -/
def handlerLookup (redis : Option (List Char → Option (List Char)))
    (digest : List Char → List Char) (providerName src tgt : List Char) :
    List Char → Option (List Char) :=
  match redis with
  | some r => fun t => r (cache_key digest t src tgt providerName)
  | none => fun _ => none

/-- The `try:` body of the `POST /translate/batch` handler `translate_batch`
    (src/services/mt-gateway/src/main.py lines 247-324): validate the pair
    (raise 400), enforce the 500-segment bound (raise 400), probe the cache
    per segment, translate the uncached normalized texts in one provider
    call, scatter the results back by original index, and respond with
    `cached_count = len(segments) - len(uncached_texts)`.  The second
    component records each invocation of `provider.translate_batch` (the
    background `setex` cache stores are fire-and-forget and not part of the
    response). -/
def translate_batch_body (supported : List (List Char × List Char))
    (redis : Option (List Char → Option (List Char)))
    (trBatch : List (List Char) → List (List Char)) (digest : List Char → List Char)
    (providerName : List Char) (segments : List (List Char)) (src tgt : List Char) :
    Except (Nat × List Char) BatchTranslationResponseM × List (List (List Char)) :=
  if !validate_language_pair supported src tgt then
    (Except.error (400, unsupportedDetail src tgt), [])
  else if 500 < segments.length then
    (Except.error (400, str "Batch size too large (max 500 segments)"), [])
  else
    let part :=
      partitionCacheAux (handlerLookup redis digest providerName src tgt) segments 0
    if part.2.2.isEmpty then
      (Except.ok ⟨part.1, src, tgt, providerName, part.1.length,
        segments.length - part.2.2.length⟩, [])
    else
      let filled := scatter part.1 part.2.1 (trBatch part.2.2)
      (Except.ok ⟨filled, src, tgt, providerName, filled.length,
        segments.length - part.2.2.length⟩, [part.2.2])

/-- The full `translate_batch` endpoint body wrapped by the same blanket
    `except Exception` clause (src/services/mt-gateway/src/main.py lines
    326-328) that re-raises every exception as `HTTPException(500, str(e))`. -/
def translate_batch_handler (supported : List (List Char × List Char))
    (redis : Option (List Char → Option (List Char)))
    (trBatch : List (List Char) → List (List Char)) (digest : List Char → List Char)
    (providerName : List Char) (segments : List (List Char)) (src tgt : List Char) :
    Except (Nat × List Char) BatchTranslationResponseM × List (List (List Char)) :=
  let b := translate_batch_body supported redis trBatch digest providerName segments src tgt
  match b.1 with
  | Except.ok r => (Except.ok r, b.2)
  | Except.error e => (Except.error (500, strOfExc e), b.2)

/-- Reference value of one response entry: the cached translation at a hit,
    the provider's translation of the normalized text at a miss. -/
def cachedOrTranslated (lookup : List Char → Option (List Char))
    (trf : List Char → List Char) (s : List Char) : Option (List Char) :=
  some (match lookup s with
    | some c => c
    | none => trf (normalize_text s))

/-- Reference value of the provider invocation: the normalized texts of the
    cache misses, in input order. -/
def missTexts (lookup : List Char → Option (List Char)) (segs : List (List Char)) :
    List (List Char) :=
  (segs.filter (fun s => (lookup s).isNone)).map normalize_text

/-- `POST /translate/batch` end to end: pydantic request validation
    (`validate_segments`, rejected requests get FastAPI's 422 before the
    handler runs) followed by the handler. -/
def translate_batch_endpoint (supported : List (List Char × List Char))
    (redis : Option (List Char → Option (List Char)))
    (trBatch : List (List Char) → List (List Char)) (digest : List Char → List Char)
    (providerName : List Char) (rawSegments : List (List Char)) (src tgt : List Char) :
    Except (Nat × List Char) BatchTranslationResponseM × List (List (List Char)) :=
  match validate_segments rawSegments with
  | Except.error e => (Except.error (422, e), [])
  | Except.ok segs =>
    translate_batch_handler supported redis trBatch digest providerName segs src tgt

/-- `LibreTranslateProvider.translate_batch`
    (src/services/mt-gateway/src/providers.py lines 111-126): one
    concurrent `translate` call per text via `asyncio.gather(...,
    return_exceptions=True)`, which yields one outcome per task in task
    (input) order; an exception outcome is replaced by the original text
    `texts[i]`.  `results` is that per-item outcome list. -/
def lt_translate_batch (texts : List (List Char))
    (results : List (Except (List Char) (List Char))) : List (List Char) :=
  List.zipWith
    (fun t r => match r with
      | Except.error _ => t
      | Except.ok v => v) texts results

/-- The clean-up applied by `detect_language` before detection
    (src/services/mt-gateway/src/utils.py lines 41-43):
    `re.sub(r'[^\w\s]', ' ', text)`. -/
def subNonWord (cs : List Char) : List Char :=
  cs.map (fun c => if isWordChar c || isWS c then c else ' ')

mutual

/-- `re.sub(r'\d+', ' ', clean_text)` (src/services/mt-gateway/src/utils.py
    line 42): each maximal digit run becomes a single space. -/
def subDigits : List Char → List Char
  | [] => []
  | c :: cs => if isDigit09 c then ' ' :: subDigitsSkip cs else c :: subDigits cs

/-- State of `subDigits` inside a digit run (the run's remaining digits are
    dropped). -/
def subDigitsSkip : List Char → List Char
  | [] => []
  | c :: cs => if isDigit09 c then subDigitsSkip cs else c :: subDigits cs

end

/-- The cleaned text handed to `langdetect.detect`
    (src/services/mt-gateway/src/utils.py lines 41-43). -/
def clean_for_detection (text : List Char) : List Char :=
  collapseWS (subDigits (subNonWord text))

/-- The detected-code remapping table (src/services/mt-gateway/src/utils.py
    lines 51-56): Catalan and Portuguese are routed as Spanish. -/
def lang_mapping (d : List Char) : List Char :=
  if d = str "ca" then str "es" else if d = str "pt" then str "es" else d

/-- `detect_language` (src/services/mt-gateway/src/utils.py lines 34-60).
    The `langdetect` call is the external parameter `detect`; `none` models
    it raising (caught by the function's `except`, which returns `None`). -/
def detect_language (detect : List Char → Option (List Char)) (text : List Char) :
    Option (List Char) :=
  if text.isEmpty || (stripWS text).length < 3 then none
  else
    let clean := clean_for_detection text
    if clean.length < 10 then none
    else
      match detect clean with
      | none => none
      | some d => some (lang_mapping d)

/-- The characters that survive sentence segmentation: neither whitespace
    nor sentence terminators. -/
def keepP (c : Char) : Bool := !isWS c && !isTerm c

/-- Every whitespace character of the list is a plain space. -/
def SpOnly (l : List Char) : Prop := ∀ x ∈ l, isWS x = true → x = ' '

/-- No two adjacent whitespace characters. -/
def NoDouble (l : List Char) : Prop :=
  List.Chain' (fun a b => ¬(isWS a = true ∧ isWS b = true)) l

/-- The list does not begin with whitespace. -/
def noLeadWS (l : List Char) : Prop := ∀ u, l.head? = some u → isWS u = false

/-- The list does not end with whitespace. -/
def noTrailWS (l : List Char) : Prop := ∀ u, l.getLast? = some u → isWS u = false

/-- Collapse-normal form: the shape of `collapseWS` output. -/
def collNormP (l : List Char) : Prop :=
  noLeadWS l ∧ noTrailWS l ∧ SpOnly l ∧ NoDouble l

/-- No adjacent pair matches the two-character pattern `(p, q)`: the form of
    text on which `subPair p q` is the identity. -/
def NA (p q : Char → Bool) (l : List Char) : Prop :=
  List.Chain' (fun a b => ¬(p a = true ∧ q b = true)) l

/-- Every punctuation mark is followed by a space (when anything follows). -/
def Rps (l : List Char) : Prop :=
  List.Chain' (fun a b => isPunctN a = true → b = ' ') l

/-- Scan predicate: a whitespace character immediately followed by a
    punctuation mark must be immediately preceded by a punctuation mark
    (the state records whether the previous character was punctuation). -/
def SPA : Bool → List Char → Prop
  | _, [] => True
  | _, [_] => True
  | prevP, a :: b :: l =>
    (isWS a = true → isPunctN b = true → prevP = true) ∧ SPA (isPunctN a) (b :: l)

/-- A group is "good" when it is non-empty and its joined text obeys the
    bound or it is a single word. -/
def goodGroup (maxLen : Nat) (g : List (List Char)) : Prop :=
  g ≠ [] ∧ ((joinSp g).length ≤ maxLen ∨ ∃ w, g = [w])

example : normalize_text (str "aB") = str "a B" := by decide

example : normalize_text (str "  hello   world ") = str "hello world" := by decide

example : normalize_text (str "ab..") = str "ab. ." := by decide

example : normalize_text (str "a.,b") = str "a. , b" := by decide

example : normalize_text (str "a ,B") = str "a, B" := by decide

example : normalize_text (str ",a") = str ", a" := by decide

example : normalize_text (str "x1Y") = str "x 1 Y" := by decide

example : splitSent (str "Hello world. This is a test!") =
    [str "Hello world", str "This is a test!"] := by decide

example : splitSent (str "ab..cd.. ef") = [str "ab..cd", str "ef"] := by decide

example : splitSent (str "x.! y") = [str "x", str "y"] := by decide

example : splitSent (str "a. ") = [str "a", str ""] := by decide

example : segment_text (str "a. b") none = [str "a", str "b"] := by decide

example : split_long_segment (str "aa bb cc") 5 = [str "aa", str "bb cc"] := by decide

example : split_long_segment (str "aaaaaaa bb") 5 = [str "aaaaaaa", str "bb"] := by decide

example : split_long_segment (str "aa aaaaaaa bb") 5 =
    [str "aa", str "aaaaaaa", str "bb"] := by decide

example : segment_text (str "abcd. x")
    (some { min_segment_length := some 3, max_segment_length := some 5 }) =
    [str "abcd x"] := by decide

example : clean_for_detection (str "ab12cd!") = str "ab cd" := by decide

example : detect_language (fun _ => some (str "en")) (str "1234") = none := by decide

example :
    detect_language (fun _ => some (str "ca")) (str "hola com estas avui") =
      some (str "es") := by decide

example :
    lt_translate_batch [str "a", str "b", str "c"]
      [Except.ok (str "A"), Except.error (str "timeout"), Except.ok (str "C")] =
    [str "A", str "b", str "C"] := by decide

/-- C9 — counterexample.  The spec scenario expects
    `["Hello world", "This is a test"]`, but `re.split(r'[.!?]+\s+', ...)`
    only removes terminator runs that are followed by whitespace, so the
    final `!` (at end of text, no following whitespace) stays attached:
    the code returns `["Hello world", "This is a test!"]`. -/
theorem segment_scenario_counterexample :
    segment_text (str "Hello world. This is a test!") none ≠
      [str "Hello world", str "This is a test"] := by decide

/-- C9 — amended.  Segmenting `"Hello world. This is a test!"` under the
    default sentence rule returns `["Hello world", "This is a test!"]`:
    the trailing `!` is not followed by whitespace, hence not consumed as a
    separator. -/
theorem segment_scenario_amended :
    segment_text (str "Hello world. This is a test!") none =
      [str "Hello world", str "This is a test!"] := by decide

/-- C5 — the code contradicts the spec (and its own intent).  For an
    unsupported language pair (`fr->en` when only `es->en` is supported)
    the handler raises `HTTPException(400, ...)` before any backend call,
    but the blanket `except Exception` clause of `translate_text`
    (main.py lines 234-236) catches that very exception and re-raises it
    as `HTTPException(500, str(e))`: the client receives a 500, not the
    documented 400.  The provider-call log is empty: the failure does
    occur before any backend call. -/
theorem unsupported_pair_yields_500 :
    translate_text_endpoint [(str "es", str "en")] none (fun t => t) id
      (str "LIBRE") (str "hola") (str "fr") (str "en") =
    (Except.error (500, strOfExc (400, unsupportedDetail (str "fr") (str "en"))), []) := by
  decide

/-- C2 — counterexample.  The client sends two segments `["a", ""]`; the
    pydantic validator silently drops the empty one, so the handler sees
    one segment and the response carries one translation: output length 1
    differs from the client-sent length 2. -/
theorem batch_length_counterexample :
    (translate_batch_endpoint [(str "es", str "en")] none (fun l => l) id
        (str "LIBRE") [str "a", str ""] (str "es") (str "en")).1 =
      Except.ok ⟨[some (str "a")], str "es", str "en", str "LIBRE", 1, 0⟩ ∧
    [str "a", str ""].length = 2 := by decide

/-- C3 — counterexample.  With `min_segment_length = 3` and
    `max_segment_length = 5`, segmenting `"abcd. x"` first yields
    `["abcd", "x"]`; the 1-character `"x"` is below `minLen` and is merged
    backward into the previous segment, producing `"abcd x"` — 6 characters,
    above `maxLen`, and containing a space, so it is not a single word:
    the claimed bound fails for `apply_length_constraints` output. -/
theorem segment_length_counterexample :
    ¬ (∀ s ∈ segment_text (str "abcd. x")
          (some { min_segment_length := some 3, max_segment_length := some 5 }),
        s.length ≤ 5 ∨ ∀ c ∈ s, ¬ isWS c) := by decide

/-- C4 — counterexample.  Sentence segmentation of `"a. b"` removes the
    separator match `". "` — including the non-whitespace character `.` —
    so concatenating the output segments does not preserve all
    non-whitespace characters of the input. -/
theorem segment_nonloss_counterexample :
    ((segment_text (str "a. b") none).flatten).filter (fun c => !isWS c) ≠
      (str "a. b").filter (fun c => !isWS c) := by decide

/-- C7 — counterexample.  `cache_key` hashes
    `f"{provider}:{src}:{tgt}:{text}"` built from the request text as
    received, not from `normalize_text(text)`: the texts `"a  b"` and
    `"a b"` normalize to the same string yet produce different digest
    inputs, hence (for any injective digest — witnessed by `id`) different
    cache keys.  The spec's "text component is the normalized text" is
    false on the code. -/
theorem cache_key_counterexample :
    normalize_text (str "a  b") = normalize_text (str "a b") ∧
    str "a  b" ≠ str "a b" ∧
    cacheContent (str "LIBRE") (str "es") (str "en") (str "a  b") ≠
      cacheContent (str "LIBRE") (str "es") (str "en") (str "a b") ∧
    cacheContent (str "LIBRE") (str "es") (str "en") (str "a  b") ≠
      cacheContent (str "LIBRE") (str "es") (str "en")
        (normalize_text (str "a  b")) ∧
    cache_key id (str "a  b") (str "es") (str "en") (str "LIBRE") ≠
      cache_key id (str "a b") (str "es") (str "en") (str "LIBRE") := by decide

lemma partAux_translations (lookup : List Char → Option (List Char)) :
    ∀ (segs : List (List Char)) (i : Nat),
      (partitionCacheAux lookup segs i).1 = segs.map (fun s => lookup s) := by
  intro segs
  induction segs with
  | nil => intro i; rfl
  | cons s ss ih =>
    intro i
    simp only [partitionCacheAux, List.map_cons]
    cases h : lookup s <;> simp [h, ih]

lemma partAux_uncached (lookup : List Char → Option (List Char)) :
    ∀ (segs : List (List Char)) (i : Nat),
      (partitionCacheAux lookup segs i).2.2 = missTexts lookup segs := by
  intro segs
  induction segs with
  | nil => intro i; rfl
  | cons s ss ih =>
    intro i
    simp only [partitionCacheAux, missTexts, List.filter_cons]
    cases h : lookup s <;> simp [h, ih, missTexts]

lemma partAux_idx_shift (lookup : List Char → Option (List Char)) :
    ∀ (segs : List (List Char)) (i : Nat),
      (partitionCacheAux lookup segs (i + 1)).2.1 =
        ((partitionCacheAux lookup segs i).2.1).map (· + 1) := by
  intro segs
  induction segs with
  | nil => intro i; rfl
  | cons s ss ih =>
    intro i
    simp only [partitionCacheAux]
    cases h : lookup s <;> simp [h, ih]

lemma scatter_nil_vals (tr : List (Option (List Char))) (idxs : List Nat) :
    scatter tr idxs [] = tr := by
  cases idxs <;> rfl

lemma scatter_cons_succ (x : Option (List Char)) :
    ∀ (idxs : List Nat) (vs : List (List Char)) (tr : List (Option (List Char))),
      scatter (x :: tr) (idxs.map (· + 1)) vs = x :: scatter tr idxs vs := by
  intro idxs
  induction idxs with
  | nil => intro vs tr; cases vs <;> rfl
  | cons i is ih =>
    intro vs tr
    cases vs with
    | nil => rfl
    | cons v vs => simpa [scatter, List.set] using ih vs (tr.set i (some v))

lemma fill_spec (lookup : List Char → Option (List Char)) (trf : List Char → List Char) :
    ∀ segs : List (List Char),
      scatter (partitionCacheAux lookup segs 0).1 (partitionCacheAux lookup segs 0).2.1
          (((partitionCacheAux lookup segs 0).2.2).map trf) =
        segs.map (cachedOrTranslated lookup trf) := by
  intro segs
  induction segs with
  | nil => rfl
  | cons s ss ih =>
    have h1 := partAux_translations lookup ss 0
    have h1b := partAux_translations lookup ss (0 + 1)
    have h2 := partAux_uncached lookup ss 0
    have h2b := partAux_uncached lookup ss (0 + 1)
    have h3 := partAux_idx_shift lookup ss 0
    rw [h1, h2] at ih
    simp only [partitionCacheAux, List.map_cons]
    cases h : lookup s with
    | some c =>
      simp only [h, h1, h1b, h2, h2b, h3]
      rw [scatter_cons_succ]
      rw [ih]
      simp [cachedOrTranslated, h]
    | none =>
      simp only [h, h1, h1b, h2, h2b, h3, List.map_cons, scatter, List.set]
      rw [scatter_cons_succ]
      rw [ih]
      simp [cachedOrTranslated, h]

/-- Full characterization of the batch handler on a validated request:
    the response is in input order with hits and translations at their
    original positions, the provider is invoked once with exactly the
    normalized miss texts (not at all if everything was cached), and
    `cached_count` is the number of segments minus the number of misses. -/
lemma translate_batch_handler_spec (supported : List (List Char × List Char))
    (redis : Option (List Char → Option (List Char)))
    (trf : List Char → List Char) (digest : List Char → List Char)
    (providerName : List Char) (segs : List (List Char)) (src tgt : List Char)
    (hsup : validate_language_pair supported src tgt = true)
    (hlen : segs.length ≤ 500) :
    translate_batch_handler supported redis (fun l => l.map trf) digest providerName
        segs src tgt =
      (Except.ok
        ⟨segs.map (cachedOrTranslated (handlerLookup redis digest providerName src tgt) trf),
          src, tgt, providerName, segs.length,
          segs.length -
            (missTexts (handlerLookup redis digest providerName src tgt) segs).length⟩,
        if (missTexts (handlerLookup redis digest providerName src tgt) segs).isEmpty
        then []
        else [missTexts (handlerLookup redis digest providerName src tgt) segs]) := by
  set L := handlerLookup redis digest providerName src tgt with hL
  have hfill := fill_spec L trf segs
  have huncached := partAux_uncached L segs 0
  have htrans := partAux_translations L segs 0
  simp only [translate_batch_handler, translate_batch_body, hsup, Bool.not_true,
    Bool.false_eq_true, if_false, Nat.not_lt.mpr hlen, if_true, if_false]
  by_cases hmiss : (missTexts L segs).isEmpty
  · have hnil : missTexts L segs = [] := List.isEmpty_iff.mp hmiss
    simp only [huncached, hmiss, if_true, hnil]
    have : (partitionCacheAux L segs 0).1 = segs.map (cachedOrTranslated L trf) := by
      have := hfill
      rw [huncached, hnil] at this
      simpa [scatter_nil_vals] using this
    simp [this, hnil, huncached]
  · simp only [huncached, hmiss, if_false]
    rw [huncached] at hfill
    simp [hfill, hmiss, huncached]

/-- C1.  For a validated batch (supported pair, at most 500 segments) and a
    provider that translates each miss item independently, the handler's
    response lists, at every original position, the cached translation on a
    hit and the provider's translation of that segment's normalized text on
    a miss — output order equals input order for every hit/miss mix; the
    provider is invoked exactly once with the normalized miss texts (not at
    all if every segment was cached), and
    `cached_count = len(segments) - len(misses)`. -/
theorem batch_order_preservation (supported : List (List Char × List Char))
    (redis : Option (List Char → Option (List Char)))
    (trf : List Char → List Char) (digest : List Char → List Char)
    (providerName : List Char) (segs : List (List Char)) (src tgt : List Char)
    (hsup : validate_language_pair supported src tgt = true)
    (hlen : segs.length ≤ 500) :
    translate_batch_handler supported redis (fun l => l.map trf) digest providerName
        segs src tgt =
      (Except.ok
        ⟨segs.map (cachedOrTranslated (handlerLookup redis digest providerName src tgt) trf),
          src, tgt, providerName, segs.length,
          segs.length -
            (missTexts (handlerLookup redis digest providerName src tgt) segs).length⟩,
        if (missTexts (handlerLookup redis digest providerName src tgt) segs).isEmpty
        then []
        else [missTexts (handlerLookup redis digest providerName src tgt) segs]) :=
  translate_batch_handler_spec supported redis trf digest providerName segs src tgt
    hsup hlen

/-- C1 — witness: the spec scenario.  Batch `["a","b","a"]`, `es->en`,
    with `"a"` pre-cached as `"A"` and a provider that prepends `T`: the
    provider is invoked only with `["b"]`, the response is
    `["A","Tb","A"]` in input order, and `cached_count = 2`. -/
theorem batch_order_preservation_witness :
    translate_batch_handler [(str "es", str "en")]
        (some fun k => if k = str "mt:LIBRE:es:en:a" then some (str "A") else none)
        (fun l => l.map (fun s => 'T' :: s)) id (str "LIBRE")
        [str "a", str "b", str "a"] (str "es") (str "en") =
      (Except.ok ⟨[some (str "A"), some (str "Tb"), some (str "A")],
        str "es", str "en", str "LIBRE", 3, 2⟩, [[str "b"]]) :=
  Eq.trans
    (batch_order_preservation [(str "es", str "en")]
      (some fun k => if k = str "mt:LIBRE:es:en:a" then some (str "A") else none)
      (fun s => 'T' :: s) id (str "LIBRE")
      [str "a", str "b", str "a"] (str "es") (str "en") (by decide) (by decide))
    (by decide)

/-- C2 — amended.  Empty segments are dropped by the pydantic validator
    before the handler runs, so the response length equals the number of
    client segments that are non-empty after stripping — not the raw
    client-sent count — and order is preserved among those surviving
    segments. -/
theorem batch_endpoint_filtered_length (supported : List (List Char × List Char))
    (redis : Option (List Char → Option (List Char)))
    (trf : List Char → List Char) (digest : List Char → List Char)
    (providerName : List Char) (raw : List (List Char)) (src tgt : List Char)
    (hne : raw.isEmpty = false)
    (hfil : (filteredSegs raw).isEmpty = false)
    (hbig : (filteredSegs raw).any (fun s => 5000 < s.length) = false)
    (hsup : validate_language_pair supported src tgt = true)
    (h500 : (filteredSegs raw).length ≤ 500) :
    translate_batch_endpoint supported redis (fun l => l.map trf) digest providerName
        raw src tgt =
      (Except.ok
        ⟨(filteredSegs raw).map
            (cachedOrTranslated (handlerLookup redis digest providerName src tgt) trf),
          src, tgt, providerName, (filteredSegs raw).length,
          (filteredSegs raw).length -
            (missTexts (handlerLookup redis digest providerName src tgt)
              (filteredSegs raw)).length⟩,
        if (missTexts (handlerLookup redis digest providerName src tgt)
              (filteredSegs raw)).isEmpty
        then []
        else [missTexts (handlerLookup redis digest providerName src tgt)
          (filteredSegs raw)]) ∧
      ((filteredSegs raw).map
          (cachedOrTranslated (handlerLookup redis digest providerName src tgt) trf)).length =
        (filteredSegs raw).length := by
  have hval : validate_segments raw = Except.ok (filteredSegs raw) := by
    simp [validate_segments, hne, hfil, hbig]
  constructor
  · simp only [translate_batch_endpoint, hval]
    exact translate_batch_handler_spec supported redis trf digest providerName
      (filteredSegs raw) src tgt hsup h500
  · simp

/-- C2 — witness: the client sends `["a", ""]` (raw length 2); the empty
    segment is filtered out, the handler translates one segment, and the
    response carries exactly one entry. -/
theorem batch_endpoint_filtered_length_witness :
    translate_batch_endpoint [(str "es", str "en")] none (fun l => l.map (fun s => s))
        id (str "LIBRE") [str "a", str ""] (str "es") (str "en") =
      (Except.ok ⟨[some (str "a")], str "es", str "en", str "LIBRE", 1, 0⟩,
        [[str "a"]]) ∧
    [str "a", str ""].length = 2 := by
  have h := batch_endpoint_filtered_length [(str "es", str "en")] none (fun s => s)
    id (str "LIBRE") [str "a", str ""] (str "es") (str "en")
    (by decide) (by decide) (by decide) (by decide) (by decide)
  exact ⟨h.1.trans (by decide), by decide⟩

lemma lt_batch_getD :
    ∀ (texts : List (List Char)) (results : List (Except (List Char) (List Char)))
      (i : Nat), results.length = texts.length → i < texts.length →
      (lt_translate_batch texts results).getD i [] =
        (match results.getD i (Except.ok []) with
         | Except.error _ => texts.getD i []
         | Except.ok v => v) := by
  intro texts
  induction texts with
  | nil => intro results i h hi; simp at hi
  | cons t ts ih =>
    intro results i hlen hi
    cases results with
    | nil => simp at hlen
    | cons r rs =>
      cases i with
      | zero => cases r <;> rfl
      | succ n =>
        have h1 : rs.length = ts.length := by simpa using hlen
        have h2 : n < ts.length := by simpa using hi
        simpa [lt_translate_batch, List.zipWith] using ih rs n h1 h2

/-- C6.  The HTTP-relay batch translation returns one result per input, in
    input order: position `i` holds the translation when call `i`
    succeeded, and the original untranslated `texts[i]` when call `i`
    failed; no failure escapes (the function is total in the outcomes). -/
theorem http_relay_batch_fallback (texts : List (List Char))
    (results : List (Except (List Char) (List Char))) (i : Nat)
    (hlen : results.length = texts.length) (hi : i < texts.length) :
    (lt_translate_batch texts results).length = texts.length ∧
    (lt_translate_batch texts results).getD i [] =
      (match results.getD i (Except.ok []) with
       | Except.error _ => texts.getD i []
       | Except.ok v => v) :=
  ⟨by simp [lt_translate_batch, List.length_zipWith, hlen],
   lt_batch_getD texts results i hlen hi⟩

/-- C6 — witness: the spec scenario.  Three concurrent calls, the middle
    one times out: the batch result has the two translations plus the
    echoed original `"b"` at position 1. -/
theorem http_relay_batch_fallback_witness :
    (lt_translate_batch [str "a", str "b", str "c"]
        [Except.ok (str "A"), Except.error (str "timeout"), Except.ok (str "C")]).length =
      [str "a", str "b", str "c"].length ∧
    (lt_translate_batch [str "a", str "b", str "c"]
        [Except.ok (str "A"), Except.error (str "timeout"), Except.ok (str "C")]).getD 1 [] =
      str "b" := by
  have h := http_relay_batch_fallback [str "a", str "b", str "c"]
    [Except.ok (str "A"), Except.error (str "timeout"), Except.ok (str "C")] 1
    (by decide) (by decide)
  exact ⟨h.1, h.2.trans (by decide)⟩

/-- C10.  `detect_language` returns `None` whenever the cleaned text
    (punctuation replaced by spaces, digit runs replaced by spaces,
    whitespace collapsed) is shorter than 10 characters — even when the
    raw text passes the 3-character minimum — and remaps a detection of
    `ca` (Catalan) or `pt` (Portuguese) to `es` before returning it. -/
theorem detect_language_spec (detect : List Char → Option (List Char))
    (text d : List Char) :
    ((clean_for_detection text).length < 10 → detect_language detect text = none) ∧
    (text.isEmpty = false → ¬ (stripWS text).length < 3 →
      ¬ (clean_for_detection text).length < 10 →
      detect (clean_for_detection text) = some d →
      (d = str "ca" ∨ d = str "pt") →
      detect_language detect text = some (str "es")) := by
  constructor
  · intro h10
    unfold detect_language
    by_cases hg : text.isEmpty || decide ((stripWS text).length < 3)
    · simp [hg]
    · simp [hg, h10]
  · intro he h3 h10 hdet hd
    unfold detect_language
    have hg : (text.isEmpty || decide ((stripWS text).length < 3)) = false := by
      simp [he, h3]
    simp only [hg, Bool.false_eq_true, if_false, h10, hdet]
    rcases hd with hd | hd <;> subst hd <;> simp [lang_mapping]

/-- C10 — witness: `"1234"` passes the 3-character raw minimum but cleans
    to the empty string (length < 10), so detection returns `None`; a text
    detected as `ca` is returned as `es`. -/
theorem detect_language_spec_witness :
    detect_language (fun _ => some (str "en")) (str "1234") = none ∧
    detect_language (fun _ => some (str "ca")) (str "hola com estas avui") =
      some (str "es") :=
  ⟨(detect_language_spec (fun _ => some (str "en")) (str "1234") (str "en")).1
      (by decide),
   (detect_language_spec (fun _ => some (str "ca")) (str "hola com estas avui")
      (str "ca")).2 (by decide) (by decide) (by decide) rfl (Or.inl rfl)⟩

/-- C7 — amended.  The cache key is `"mt:"` plus the first 16 hex
    characters of the digest of `provider:src:tgt:text` where the text
    component is the request text as received (not its normalization): on a
    hit under that key the handler returns the cached translation with
    `cached = true` and never calls the backend.  Requests with identical
    raw text address the same entry; textually different requests with
    equal normalizations need not (see the counterexample). -/
theorem cache_key_raw_text (supported : List (List Char × List Char))
    (digest : List Char → List Char) (prov src tgt text c : List Char)
    (r : List Char → Option (List Char)) (tr : List Char → List Char)
    (hsup : validate_language_pair supported src tgt = true)
    (hhit : r (cache_key digest text src tgt prov) = some c) :
    translate_text_body supported (some r) tr digest prov text src tgt =
      (Except.ok ⟨c, src, tgt, prov, true⟩, []) ∧
    cache_key digest text src tgt prov =
      str "mt:" ++ (digest (cacheContent prov src tgt text)).take 16 := by
  constructor
  · simp [translate_text_body, hsup, hhit]
  · rfl

/-- C7 — witness: a concrete hit.  With the identity digest, the key for
    text `"hola"` under `LIBRE, es->en` is
    `"mt:" ++ take 16 "LIBRE:es:en:hola"`; a store holding `"hello"` under
    that key makes the handler answer from the cache without calling the
    backend. -/
theorem cache_key_raw_text_witness :
    translate_text_body [(str "es", str "en")]
        (some fun k => if k = cache_key id (str "hola") (str "es") (str "en") (str "LIBRE")
          then some (str "hello") else none)
        (fun t => t) id (str "LIBRE") (str "hola") (str "es") (str "en") =
      (Except.ok ⟨str "hello", str "es", str "en", str "LIBRE", true⟩, []) ∧
    cache_key id (str "hola") (str "es") (str "en") (str "LIBRE") =
      str "mt:" ++ (id (cacheContent (str "LIBRE") (str "es") (str "en") (str "hola"))).take 16 :=
  cache_key_raw_text [(str "es", str "en")] id (str "LIBRE") (str "es") (str "en")
    (str "hola") (str "hello")
    (fun k => if k = cache_key id (str "hola") (str "es") (str "en") (str "LIBRE")
      then some (str "hello") else none)
    (fun t => t) (by decide) (by decide)

lemma pysplitAux_words :
    ∀ (cs cur : List Char), (∀ c ∈ cur, isWS c = false) →
      ∀ w ∈ pysplitAux cur cs, w ≠ [] ∧ ∀ c ∈ w, isWS c = false := by
  intro cs
  induction cs with
  | nil =>
    intro cur hcur w hw
    by_cases hc : cur.isEmpty
    · simp [pysplitAux, hc] at hw
    · simp [pysplitAux, hc] at hw
      subst hw
      refine ⟨by simpa using List.isEmpty_iff.not.mp hc, ?_⟩
      intro c hcmem
      exact hcur c (List.mem_reverse.mp hcmem)
  | cons c cs ih =>
    intro cur hcur w hw
    simp only [pysplitAux] at hw
    by_cases hws : isWS c
    · simp only [hws, if_true] at hw
      by_cases hc : cur.isEmpty
      · simp only [hc, if_true] at hw
        exact ih [] (by simp) w hw
      · simp only [hc, if_false] at hw
        rcases List.mem_cons.mp hw with hw | hw
        · subst hw
          refine ⟨by simpa using List.isEmpty_iff.not.mp hc, ?_⟩
          intro x hx
          exact hcur x (List.mem_reverse.mp hx)
        · exact ih [] (by simp) w hw
    · simp only [hws, if_false] at hw
      refine ih (c :: cur) ?_ w hw
      intro x hx
      rcases List.mem_cons.mp hx with hx | hx
      · subst hx; simpa using hws
      · exact hcur x hx

lemma joinSp_append_single (l : List (List Char)) (w : List Char) :
    joinSp (l ++ [w]) = if l.isEmpty then w else joinSp l ++ ' ' :: w := by
  induction l with
  | nil => rfl
  | cons a l ih =>
    cases l with
    | nil => rfl
    | cons b l2 =>
      simp only [List.cons_append] at ih ⊢
      show a ++ ' ' :: joinSp (b :: (l2 ++ [w])) = _
      rw [ih]
      simp [joinSp, List.append_assoc]

lemma sls_fold_spec (maxLen : Nat) :
    ∀ (ws : List (List Char)) (parts cur : List (List Char)) (curLen : Nat)
      (pg : List (List (List Char))),
      parts = pg.map joinSp →
      (∀ g ∈ pg, goodGroup maxLen g) →
      (joinSp cur).length ≤ curLen →
      (cur ≠ [] → cur.length = 1 ∨ (joinSp cur).length ≤ maxLen) →
      ∃ pg2 : List (List (List Char)),
        (if (ws.foldl (slsStep maxLen) (parts, cur, curLen)).2.1.isEmpty
         then (ws.foldl (slsStep maxLen) (parts, cur, curLen)).1
         else (ws.foldl (slsStep maxLen) (parts, cur, curLen)).1 ++
           [joinSp (ws.foldl (slsStep maxLen) (parts, cur, curLen)).2.1]) =
          pg2.map joinSp ∧
        pg2.flatten = pg.flatten ++ cur ++ ws ∧
        (∀ g ∈ pg2, goodGroup maxLen g) := by
  intro ws
  induction ws with
  | nil =>
    intro parts cur curLen pg hparts hgood hlen hcur
    by_cases hc : cur.isEmpty
    · refine ⟨pg, ?_, ?_, hgood⟩
      · simpa [List.foldl, hc] using hparts
      · have : cur = [] := List.isEmpty_iff.mp hc
        simp [this]
    · have hcne : cur ≠ [] := List.isEmpty_iff.not.mp hc
      refine ⟨pg ++ [cur], ?_, ?_, ?_⟩
      · simp [List.foldl, hc, hparts]
      · simp
      · intro g hg
        rcases List.mem_append.mp hg with hg | hg
        · exact hgood g hg
        · have : g = cur := by simpa using hg
          subst this
          refine ⟨hcne, ?_⟩
          rcases hcur hcne with h1 | h1
          · exact Or.inr (List.length_eq_one.mp h1)
          · exact Or.inl h1
  | cons word ws ih =>
    intro parts cur curLen pg hparts hgood hlen hcur
    simp only [List.foldl_cons]
    by_cases hfit : curLen + (word.length + 1) ≤ maxLen
    · have hstep : slsStep maxLen (parts, cur, curLen) word =
          (parts, cur ++ [word], curLen + (word.length + 1)) := by
        simp [slsStep, hfit]
      rw [hstep]
      have hlen2 : (joinSp (cur ++ [word])).length ≤ curLen + (word.length + 1) := by
        rw [joinSp_append_single]
        by_cases hc : cur.isEmpty
        · simp [hc]; omega
        · simp only [hc, Bool.false_eq_true, if_false, List.length_append,
            List.length_cons]
          omega
      have hcur2 : cur ++ [word] ≠ [] → (cur ++ [word]).length = 1 ∨
          (joinSp (cur ++ [word])).length ≤ maxLen := by
        intro _
        by_cases hc : cur.isEmpty
        · have : cur = [] := List.isEmpty_iff.mp hc
          subst this
          left; rfl
        · right
          exact le_trans hlen2 hfit
      rcases ih parts (cur ++ [word]) (curLen + (word.length + 1)) pg hparts hgood
        hlen2 hcur2 with ⟨pg2, h1, h2, h3⟩
      refine ⟨pg2, h1, ?_, h3⟩
      rw [h2]
      simp [List.append_assoc]
    · by_cases hc : cur.isEmpty
      · have hcnil : cur = [] := List.isEmpty_iff.mp hc
        have hstep : slsStep maxLen (parts, cur, curLen) word =
            (parts ++ [word], cur, curLen) := by
          simp [slsStep, hfit, hc]
        rw [hstep]
        have hparts2 : parts ++ [word] = (pg ++ [[word]]).map joinSp := by
          simp [hparts, joinSp]
        have hgood2 : ∀ g ∈ pg ++ [[word]], goodGroup maxLen g := by
          intro g hg
          rcases List.mem_append.mp hg with hg | hg
          · exact hgood g hg
          · have : g = [word] := by simpa using hg
            subst this
            exact ⟨by simp, Or.inr ⟨word, rfl⟩⟩
        rcases ih (parts ++ [word]) cur curLen (pg ++ [[word]]) hparts2 hgood2
          hlen hcur with ⟨pg2, h1, h2, h3⟩
        refine ⟨pg2, h1, ?_, h3⟩
        rw [h2]
        simp [hcnil]
      · have hcne : cur ≠ [] := List.isEmpty_iff.not.mp hc
        have hstep : slsStep maxLen (parts, cur, curLen) word =
            (parts ++ [joinSp cur], [word], word.length) := by
          simp [slsStep, hfit, hc]
        rw [hstep]
        have hparts2 : parts ++ [joinSp cur] = (pg ++ [cur]).map joinSp := by
          simp [hparts]
        have hgood2 : ∀ g ∈ pg ++ [cur], goodGroup maxLen g := by
          intro g hg
          rcases List.mem_append.mp hg with hg | hg
          · exact hgood g hg
          · have : g = cur := by simpa using hg
            subst this
            refine ⟨hcne, ?_⟩
            rcases hcur hcne with h1 | h1
            · exact Or.inr (List.length_eq_one.mp h1)
            · exact Or.inl h1
        rcases ih (parts ++ [joinSp cur]) [word] word.length (pg ++ [cur]) hparts2
          hgood2 (by simp [joinSp]) (fun _ => Or.inl rfl) with ⟨pg2, h1, h2, h3⟩
        refine ⟨pg2, h1, ?_, h3⟩
        rw [h2]
        simp

/-- C3 — amended.  Every part emitted by `split_long_segment` is the
    single-space join of a consecutive group of the segment's words —
    words are never split mid-word, truncated, dropped or reordered — and
    each part either fits in `maxLen` or is a single word (containing no
    whitespace).  The claimed bound does not extend to `segment_text` as a
    whole: the backward merge of short segments in
    `apply_length_constraints` can exceed `maxLen` (see the
    counterexample), and no constraint at all is applied when the request
    carries no length options. -/
theorem split_long_segment_bound (segment : List Char) (maxLen : Nat) :
    (∃ groups : List (List (List Char)),
      split_long_segment segment maxLen = groups.map joinSp ∧
      groups.flatten = pysplit segment ∧
      ∀ g ∈ groups, goodGroup maxLen g) ∧
    (∀ w ∈ pysplit segment, w ≠ [] ∧ ∀ c ∈ w, isWS c = false) ∧
    (∀ p ∈ split_long_segment segment maxLen,
      p.length ≤ maxLen ∨ ∀ c ∈ p, isWS c = false) := by
  have hwords := pysplitAux_words segment [] (by simp)
  rcases sls_fold_spec maxLen (pysplit segment) [] [] 0 [] rfl (by simp)
    (by simp [joinSp]) (fun h => absurd rfl h) with ⟨pg2, h1, h2, h3⟩
  have hsplit : split_long_segment segment maxLen = pg2.map joinSp := by
    simpa [split_long_segment] using h1
  have hflat : pg2.flatten = pysplit segment := by simpa using h2
  refine ⟨⟨pg2, hsplit, hflat, h3⟩, hwords, ?_⟩
  intro p hp
  rw [hsplit] at hp
  rcases List.mem_map.mp hp with ⟨g, hg, hpg⟩
  rcases (h3 g hg).2 with hb | ⟨w, hw⟩
  · left; rw [← hpg]; exact hb
  · right
    subst hw
    have hwmem : w ∈ pg2.flatten := List.mem_flatten.mpr ⟨[w], hg, by simp⟩
    rw [hflat] at hwmem
    have hwchars := (hwords w hwmem).2
    have hpw : p = w := by rw [← hpg]; rfl
    subst hpw
    intro c hcmem
    exact hwchars c hcmem

lemma filter_keepP_dropWhileWS (x : List Char) :
    (x.dropWhile isWS).filter keepP = x.filter keepP := by
  induction x with
  | nil => rfl
  | cons c cs ih =>
    by_cases h : isWS c
    · have hk : keepP c = false := by simp [keepP, h]
      simp [List.dropWhile_cons, h, List.filter_cons, hk, ih]
    · simp [List.dropWhile_cons, h]

lemma filter_keepP_stripWS (x : List Char) :
    (stripWS x).filter keepP = x.filter keepP := by
  unfold stripWS
  rw [List.filter_reverse, filter_keepP_dropWhileWS, List.filter_reverse,
    List.reverse_reverse, filter_keepP_dropWhileWS]

lemma flatten_filter_nonempty (l : List (List Char)) :
    (l.filter (fun s => !s.isEmpty)).flatten = l.flatten := by
  induction l with
  | nil => rfl
  | cons s ss ih =>
    by_cases h : s.isEmpty
    · have : s = [] := List.isEmpty_iff.mp h
      simp [List.filter_cons, h, this, ih]
    · simp [List.filter_cons, h, ih]

lemma flatten_map_strip_filter (l : List (List Char)) :
    ((l.map stripWS).flatten).filter keepP = (l.flatten).filter keepP := by
  induction l with
  | nil => rfl
  | cons s ss ih =>
    simp [List.filter_append, filter_keepP_stripWS, ih]

lemma filter_keepP_allTerm (pend : List Char) (hp : ∀ x ∈ pend, isTerm x = true) :
    pend.filter keepP = [] := by
  induction pend with
  | nil => rfl
  | cons c cs ih =>
    have hc := hp c (by simp)
    have hk : keepP c = false := by simp [keepP, hc]
    exact (by simp [List.filter_cons, hk,
      ih (fun x hx => hp x (List.mem_cons_of_mem c hx))])

lemma sentAux_filter :
    ∀ (cs acc pend : List Char) (sep : Bool), (∀ x ∈ pend, isTerm x = true) →
      ((sentAux acc pend sep cs).flatten).filter keepP =
        ((pend ++ acc).reverse ++ cs).filter keepP := by
  intro cs
  induction cs with
  | nil =>
    intro acc pend sep hp
    simp [sentAux]
  | cons c cs ih =>
    intro acc pend sep hp
    simp only [sentAux]
    by_cases h1 : sep && isWS c
    · have h1c := h1
      rw [Bool.and_eq_true] at h1c
      have hws : isWS c = true := h1c.2
      have hk : keepP c = false := by simp [keepP, hws]
      rw [if_pos h1, ih acc pend true hp]
      simp [List.filter_append, List.filter_cons, hk]
    · rw [if_neg (by simp [h1])]
      by_cases h2 : isTerm c
      · have hk : keepP c = false := by simp [keepP, h2]
        rw [if_pos h2]
        have hp2 : ∀ x ∈ c :: pend, isTerm x = true := by
          intro x hx
          rcases List.mem_cons.mp hx with hx | hx
          · subst hx; exact h2
          · exact hp x hx
        rw [ih acc (c :: pend) false hp2]
        simp [List.filter_append, List.filter_cons, hk]
      · rw [if_neg (by simp [h2])]
        by_cases h3 : isWS c && !pend.isEmpty
        · have h3c := h3
          rw [Bool.and_eq_true] at h3c
          have hws : isWS c = true := h3c.1
          have hk : keepP c = false := by simp [keepP, hws]
          rw [if_pos h3]
          simp only [List.flatten_cons, List.filter_append]
          rw [ih [] [] true (by simp)]
          simp [List.filter_append, List.reverse_append, List.filter_cons, hk,
            filter_keepP_allTerm pend hp]
        · rw [if_neg (by simp at h3 ⊢; intro h; exact h3 h)]
          rw [ih (c :: (pend ++ acc)) [] false (by simp)]
          simp [List.filter_append, List.reverse_append, List.filter_cons]

/-- C4 — amended.  Under the default sentence rule, segmentation loses
    only whitespace and sentence-terminator characters: filtering both the
    concatenated output and the input down to characters that are neither
    whitespace nor in `{'.', '!', '?'}` yields the same sequence (order and
    multiplicity preserved).  The original claim fails because the
    separator match `[.!?]+\s+` removes terminator runs, which are
    non-whitespace characters (see the counterexample). -/
theorem sentence_segmentation_nonloss (cs : List Char) :
    ((segment_text cs none).flatten).filter keepP = cs.filter keepP := by
  unfold segment_text
  by_cases h : (stripWS cs).isEmpty
  · have h0 : (stripWS cs).filter keepP = [] := by
      rw [List.isEmpty_iff.mp h]; rfl
    rw [if_pos h]
    have h2 := filter_keepP_stripWS cs
    rw [h0] at h2
    simpa using h2
  · rw [if_neg h]
    simp only [segment_by_sentences, splitSent]
    rw [flatten_filter_nonempty, flatten_map_strip_filter,
      flatten_filter_nonempty, flatten_map_strip_filter]
    simpa using sentAux_filter cs [] [] false (by simp)

lemma ws_cases (c : Char) (h : isWS c = true) :
    c = ' ' ∨ c = '\t' ∨ c = '\n' ∨ c = '\r' ∨ c = '\x0b' ∨ c = '\x0c' := by
  simp [isWS] at h
  tauto

lemma punct_cases (c : Char) (h : isPunctN c = true) :
    c = ',' ∨ c = '.' ∨ c = ';' ∨ c = ':' ∨ c = '!' ∨ c = '?' := by
  simp [isPunctN] at h
  tauto

lemma punct_not_ws (c : Char) (h : isPunctN c = true) : isWS c = false := by
  rcases punct_cases c h with h2 | h2 | h2 | h2 | h2 | h2 <;> subst h2 <;> decide

lemma ws_not_punct (c : Char) (h : isWS c = true) : isPunctN c = false := by
  rcases ws_cases c h with h2 | h2 | h2 | h2 | h2 | h2 <;> subst h2 <;> decide

lemma lower_not_ws (c : Char) (h : isLowerAZ c = true) : isWS c = false := by
  cases hws : isWS c
  · rfl
  · rcases ws_cases c hws with h2 | h2 | h2 | h2 | h2 | h2 <;> subst h2 <;>
      exact absurd h (by decide)

lemma upper_not_ws (c : Char) (h : isUpperAZ c = true) : isWS c = false := by
  cases hws : isWS c
  · rfl
  · rcases ws_cases c hws with h2 | h2 | h2 | h2 | h2 | h2 <;> subst h2 <;>
      exact absurd h (by decide)

lemma digit_not_ws (c : Char) (h : isDigit09 c = true) : isWS c = false := by
  cases hws : isWS c
  · rfl
  · rcases ws_cases c hws with h2 | h2 | h2 | h2 | h2 | h2 <;> subst h2 <;>
      exact absurd h (by decide)

lemma punct_not_lower (c : Char) (h : isPunctN c = true) : isLowerAZ c = false := by
  rcases punct_cases c h with h2 | h2 | h2 | h2 | h2 | h2 <;> subst h2 <;> decide

lemma punct_not_upper (c : Char) (h : isPunctN c = true) : isUpperAZ c = false := by
  rcases punct_cases c h with h2 | h2 | h2 | h2 | h2 | h2 <;> subst h2 <;> decide

lemma punct_not_digit (c : Char) (h : isPunctN c = true) : isDigit09 c = false := by
  rcases punct_cases c h with h2 | h2 | h2 | h2 | h2 | h2 <;> subst h2 <;> decide

lemma squeeze_sponly : ∀ (l : List Char) (b : Bool), SpOnly (squeezeWS b l) := by
  intro l
  induction l with
  | nil => intro b x hx; simp [squeezeWS] at hx
  | cons c cs ih =>
    intro b x hx
    by_cases hws : isWS c
    · cases b with
      | true =>
        simp only [squeezeWS, hws, if_true] at hx
        exact ih true x hx
      | false =>
        simp only [squeezeWS, hws, if_true] at hx
        rcases List.mem_cons.mp hx with hx | hx
        · intro _; exact hx
        · exact ih true x hx
    · simp only [squeezeWS, hws] at hx
      rw [if_neg (by simp [hws])] at hx
      rcases List.mem_cons.mp hx with hx | hx
      · subst hx; intro h2; exact absurd h2 (by simp [hws])
      · exact ih false x hx

lemma squeeze_true_head (l : List Char) :
    squeezeWS true l = [] ∨
      ∃ u t, squeezeWS true l = u :: t ∧ isWS u = false := by
  induction l with
  | nil => left; rfl
  | cons c cs ih =>
    by_cases hws : isWS c
    · simpa [squeezeWS, hws] using ih
    · right
      refine ⟨c, squeezeWS false cs, ?_, by simp [hws]⟩
      simp [squeezeWS, hws]

lemma squeeze_nodouble : ∀ (l : List Char) (b : Bool), NoDouble (squeezeWS b l) := by
  intro l
  induction l with
  | nil => intro b; simp [squeezeWS, NoDouble]
  | cons c cs ih =>
    intro b
    by_cases hws : isWS c
    · cases b with
      | true => simpa [squeezeWS, hws] using ih true
      | false =>
        simp only [squeezeWS, hws, if_true, Bool.false_eq_true, if_false]
        rw [NoDouble, List.chain'_cons']
        refine ⟨?_, ih true⟩
        intro y hy
        rcases squeeze_true_head cs with h | ⟨u, t, hu, hnw⟩
        · rw [h] at hy; simp at hy
        · rw [hu] at hy
          simp at hy
          subst hy
          intro hcon
          rw [hnw] at hcon
          exact absurd hcon.2 (by simp)
    · have : squeezeWS b (c :: cs) = c :: squeezeWS false cs := by
        simp [squeezeWS, hws]
      rw [this, NoDouble, List.chain'_cons']
      refine ⟨?_, ih false⟩
      intro y hy hcon
      exact absurd hcon.1 hws

lemma squeeze_true_eq_nil :
    ∀ l : List Char, squeezeWS true l = [] → ∀ x ∈ l, isWS x = true := by
  intro l
  induction l with
  | nil => intro _ x hx; simp at hx
  | cons c cs ih =>
    intro h x hx
    by_cases hws : isWS c
    · simp only [squeezeWS, hws, if_true] at h
      rcases List.mem_cons.mp hx with hx | hx
      · subst hx; exact hws
      · exact ih h x hx
    · simp [squeezeWS, hws] at h

lemma squeeze_false_cons_ne (d : Char) (t : List Char) :
    squeezeWS false (d :: t) ≠ [] := by
  by_cases h : isWS d
  · simp [squeezeWS, h]
  · simp [squeezeWS, h]

lemma noTrail_cons (c : Char) (cs : List Char) (h : noTrailWS (c :: cs))
    (hne : cs ≠ []) : noTrailWS cs := by
  intro u hu
  apply h
  cases cs with
  | nil => exact absurd rfl hne
  | cons d t => rw [List.getLast?_cons_cons]; exact hu

lemma squeeze_noTrail :
    ∀ (l : List Char) (b : Bool), noTrailWS l → noTrailWS (squeezeWS b l) := by
  intro l
  induction l with
  | nil => intro b _ u hu; simp [squeezeWS] at hu
  | cons c cs ih =>
    intro b h
    by_cases hws : isWS c
    · cases b with
      | true =>
        simp only [squeezeWS, hws, if_true]
        cases cs with
        | nil => intro u hu; simp [squeezeWS] at hu
        | cons d t => exact ih true (noTrail_cons c (d :: t) h (by simp))
      | false =>
        simp only [squeezeWS, hws, if_true, Bool.false_eq_true, if_false]
        cases cs with
        | nil =>
          exact absurd (h c rfl) (by simp [hws])
        | cons d t =>
          have hcs : noTrailWS (d :: t) := noTrail_cons c (d :: t) h (by simp)
          have hrec := ih true hcs
          intro u hu
          cases hr : squeezeWS true (d :: t) with
          | nil =>
            have hall := squeeze_true_eq_nil (d :: t) hr
            obtain ⟨v, hv⟩ : ∃ v, (d :: t).getLast? = some v := by
              cases t with
              | nil => exact ⟨d, rfl⟩
              | cons e r =>
                rw [List.getLast?_cons_cons]
                cases hg : (e :: r).getLast? with
                | none => simp [List.getLast?_eq_none_iff] at hg
                | some v => exact ⟨v, rfl⟩
            exact absurd (hall v (List.mem_of_mem_getLast? hv)) (by simp [hcs v hv])
          | cons e r =>
            rw [hr] at hu
            rw [List.getLast?_cons_cons] at hu
            rw [← hr] at hu
            exact hrec u hu
    · have heq : squeezeWS b (c :: cs) = c :: squeezeWS false cs := by
        simp [squeezeWS, hws]
      rw [heq]
      cases cs with
      | nil =>
        intro u hu
        simp only [squeezeWS] at hu
        simp at hu
        subst hu
        simpa using hws
      | cons d t =>
        have hcs : noTrailWS (d :: t) := noTrail_cons c (d :: t) h (by simp)
        have hrec := ih false hcs
        intro u hu
        cases hr : squeezeWS false (d :: t) with
        | nil => exact absurd hr (squeeze_false_cons_ne d t)
        | cons e r =>
          rw [hr] at hu
          rw [List.getLast?_cons_cons] at hu
          rw [← hr] at hu
          exact hrec u hu

lemma dropWhile_head_false (pr : Char → Bool) :
    ∀ (l : List Char) (u : Char), ((l.dropWhile pr).head? = some u) → pr u = false := by
  intro l
  induction l with
  | nil => intro u hu; simp at hu
  | cons c cs ih =>
    intro u hu
    by_cases hc : pr c
    · rw [List.dropWhile_cons, if_pos hc] at hu
      exact ih u hu
    · rw [List.dropWhile_cons, if_neg hc] at hu
      simp at hu
      subst hu
      simpa using hc

lemma strip_decomp (x : List Char) :
    x.dropWhile isWS =
      stripWS x ++ ((x.dropWhile isWS).reverse.takeWhile isWS).reverse := by
  unfold stripWS
  have h := List.takeWhile_append_dropWhile isWS (x.dropWhile isWS).reverse
  calc x.dropWhile isWS = (x.dropWhile isWS).reverse.reverse := by rw [List.reverse_reverse]
    _ = (((x.dropWhile isWS).reverse.takeWhile isWS) ++
          ((x.dropWhile isWS).reverse.dropWhile isWS)).reverse := by rw [h]
    _ = _ := by rw [List.reverse_append]

lemma strip_noLead (x : List Char) : noLeadWS (stripWS x) := by
  intro u hu
  cases hs : stripWS x with
  | nil => rw [hs] at hu; simp at hu
  | cons c t =>
    rw [hs] at hu
    simp at hu
    subst hu
    have hd := strip_decomp x
    rw [hs] at hd
    have hh : (x.dropWhile isWS).head? = some c := by rw [hd]; rfl
    exact dropWhile_head_false isWS x c hh

lemma strip_noTrail (x : List Char) : noTrailWS (stripWS x) := by
  intro u hu
  unfold stripWS at hu
  rw [List.getLast?_reverse] at hu
  exact dropWhile_head_false isWS (x.dropWhile isWS).reverse u hu

lemma collapse_noLead (x : List Char) : noLeadWS (collapseWS x) := by
  unfold collapseWS
  cases hs : stripWS x with
  | nil => intro u hu; simp [squeezeWS] at hu
  | cons c t =>
    have hc : isWS c = false := strip_noLead x c (by rw [hs]; rfl)
    intro u hu
    have heq : squeezeWS false (c :: t) = c :: squeezeWS false t := by
      simp [squeezeWS, hc]
    rw [heq] at hu
    simp at hu
    rw [← hu]
    exact hc

lemma squeeze_id :
    ∀ y : List Char, SpOnly y → NoDouble y →
      squeezeWS false y = y ∧
        ((∀ u, y.head? = some u → isWS u = false) → squeezeWS true y = y) := by
  intro y
  induction y with
  | nil => exact fun _ _ => ⟨rfl, fun _ => rfl⟩
  | cons c cs ih =>
    intro hsp hnd
    have hsp2 : SpOnly cs := fun x hx => hsp x (List.mem_cons_of_mem c hx)
    have hnd2 : NoDouble cs := (List.chain'_cons'.mp hnd).2
    have hpair := (List.chain'_cons'.mp hnd).1
    constructor
    · by_cases hws : isWS c
      · have hc : c = ' ' := hsp c (by simp) hws
        simp only [squeezeWS, hws, if_true]
        have hhead : ∀ u, cs.head? = some u → isWS u = false := by
          intro u hu
          have := hpair u (by rw [hu]; rfl)
          cases hwu : isWS u
          · rfl
          · exact absurd ⟨hws, hwu⟩ this
        rw [(ih hsp2 hnd2).2 hhead, hc]
        simp
      · simp only [squeezeWS, hws]
        rw [if_neg (by simp [hws]), (ih hsp2 hnd2).1]
    · intro hhead
      have hws : isWS c = false := hhead c rfl
      simp only [squeezeWS, hws]
      rw [if_neg (by simp [hws]), (ih hsp2 hnd2).1]

lemma strip_id (y : List Char) (h1 : noLeadWS y) (h2 : noTrailWS y) :
    stripWS y = y := by
  have hd : y.dropWhile isWS = y := by
    cases y with
    | nil => rfl
    | cons c t => rw [List.dropWhile_cons, if_neg (by simp [h1 c rfl])]
  have hr : y.reverse.dropWhile isWS = y.reverse := by
    cases hy : y.reverse with
    | nil => rfl
    | cons u t =>
      have hu : y.getLast? = some u := by rw [← List.head?_reverse, hy]; rfl
      rw [List.dropWhile_cons, if_neg (by simp [h2 u hu])]
  unfold stripWS
  rw [hd, hr, List.reverse_reverse]

lemma collapse_collNorm (x : List Char) : collNormP (collapseWS x) := by
  refine ⟨collapse_noLead x, ?_, squeeze_sponly (stripWS x) false,
    squeeze_nodouble (stripWS x) false⟩
  exact squeeze_noTrail (stripWS x) false (strip_noTrail x)

lemma collapse_id (y : List Char) (h : collNormP y) : collapseWS y = y := by
  obtain ⟨h1, h2, h3, h4⟩ := h
  unfold collapseWS
  rw [strip_id y h1 h2, (squeeze_id y h3 h4).1]

lemma subPair_head (p q : Char → Bool) :
    ∀ l : List Char, (subPair p q l).head? = l.head? := by
  intro l
  rcases l with _ | ⟨a, _ | ⟨b, rest⟩⟩
  · rfl
  · rfl
  · by_cases h : p a && q b <;> simp [subPair, h]

lemma subPair_noadj (p q : Char → Bool) (hp : p ' ' = false) (hq : q ' ' = false)
    (hdisj : ∀ x, ¬(q x = true ∧ p x = true)) :
    ∀ l : List Char, NA p q (subPair p q l) := by
  intro l
  induction l using subPair.induct p q with
  | case1 => simp [subPair, NA]
  | case2 a => simp [subPair, NA]
  | case3 a b rest h ih =>
    have hab := h
    rw [Bool.and_eq_true] at hab
    simp only [subPair, h, if_true]
    rw [NA, List.chain'_cons']
    refine ⟨fun y hy => ?_, ?_⟩
    · simp at hy
      subst hy
      intro hcon
      rw [hq] at hcon
      exact absurd hcon.2 (by simp)
    rw [List.chain'_cons']
    refine ⟨fun y hy => ?_, ?_⟩
    · simp at hy
      subst hy
      intro hcon
      rw [hp] at hcon
      exact absurd hcon.1 (by simp)
    rw [List.chain'_cons']
    refine ⟨fun y hy => ?_, ih⟩
    intro hcon
    exact hdisj b ⟨hab.2, hcon.1⟩
  | case4 a b rest h ih =>
    simp only [subPair]
    rw [if_neg h]
    rw [NA, List.chain'_cons']
    refine ⟨fun y hy => ?_, ih⟩
    rw [subPair_head] at hy
    simp at hy
    subst hy
    intro hcon
    exact h (by rw [Bool.and_eq_true]; exact hcon)

lemma subPair_id (p q : Char → Bool) :
    ∀ l : List Char, NA p q l → subPair p q l = l := by
  intro l
  induction l using subPair.induct p q with
  | case1 => intro _; rfl
  | case2 a => intro _; rfl
  | case3 a b rest h ih =>
    intro hna
    rw [NA, List.chain'_cons'] at hna
    have hb : ¬(p a = true ∧ q b = true) := hna.1 b rfl
    rw [Bool.and_eq_true] at h
    exact absurd h hb
  | case4 a b rest h ih =>
    intro hna
    rw [NA, List.chain'_cons'] at hna
    simp only [subPair]
    rw [if_neg h, ih hna.2]

lemma subPair_chain (R : Char → Char → Prop) (hsp_l : ∀ y, R ' ' y)
    (hsp_r : ∀ x, R x ' ') (p q : Char → Bool) :
    ∀ l : List Char, List.Chain' R l → List.Chain' R (subPair p q l) := by
  intro l
  induction l using subPair.induct p q with
  | case1 => intro _; simp [subPair]
  | case2 a => intro h; exact h
  | case3 a b rest h ih =>
    intro hc
    have hc1 := (List.chain'_cons'.mp hc).1
    have hcb := List.chain'_cons'.mp (List.chain'_cons'.mp hc).2
    simp only [subPair, h, if_true]
    rw [List.chain'_cons']
    refine ⟨fun y hy => ?_, ?_⟩
    · simp at hy; subst hy; exact hsp_r a
    rw [List.chain'_cons']
    refine ⟨fun y hy => ?_, ?_⟩
    · simp at hy; subst hy; exact hsp_l b
    rw [List.chain'_cons']
    refine ⟨fun y hy => ?_, ih hcb.2⟩
    rw [subPair_head] at hy
    exact hcb.1 y hy
  | case4 a b rest h ih =>
    intro hc
    have hc1 := (List.chain'_cons'.mp hc).1
    have hc2 := (List.chain'_cons'.mp hc).2
    simp only [subPair]
    rw [if_neg h, List.chain'_cons']
    refine ⟨fun y hy => ?_, ih hc2⟩
    rw [subPair_head] at hy
    exact hc1 y hy

lemma chain'_allWS (R : Char → Char → Prop) (h : ∀ a b, isWS a = true → R a b) :
    ∀ l : List Char, (∀ x ∈ l, isWS x = true) → List.Chain' R l := by
  intro l
  induction l with
  | nil => intro _; simp
  | cons c cs ih =>
    intro hall
    rw [List.chain'_cons']
    exact ⟨fun y _ => h c y (hall c (by simp)),
      ih (fun x hx => hall x (List.mem_cons_of_mem c hx))⟩

lemma punctAux_pend_head :
    ∀ (cs pend : List Char), pend ≠ [] → (∀ x ∈ pend, isWS x = true) →
      punctAux false pend cs = [] ∨
        ∃ u t, punctAux false pend cs = u :: t ∧
          (isWS u = true ∨ isPunctN u = true) := by
  intro cs
  induction cs with
  | nil =>
    intro pend hne hws
    right
    cases hr : pend.reverse with
    | nil => exact absurd (by simpa using hr) hne
    | cons u t =>
      refine ⟨u, t, by simp [punctAux, hr], Or.inl ?_⟩
      exact hws u (by rw [← List.mem_reverse, hr]; simp)
  | cons c cs2 ih =>
    intro pend hne hws
    by_cases hw : isWS c
    · have := ih (c :: pend) (by simp)
        (fun x hx => by
          rcases List.mem_cons.mp hx with hx | hx
          · subst hx; exact hw
          · exact hws x hx)
      simpa [punctAux, hw] using this
    · by_cases hp : isPunctN c
      · right
        exact ⟨c, ' ' :: punctAux true [] cs2, by simp [punctAux, hw, hp],
          Or.inr hp⟩
      · right
        cases hr : pend.reverse with
        | nil => exact absurd (by simpa using hr) hne
        | cons u t =>
          refine ⟨u, t ++ c :: punctAux false [] cs2, ?_, Or.inl ?_⟩
          · simp [punctAux, hw, hp, hr]
          · exact hws u (by rw [← List.mem_reverse, hr]; simp)

lemma punctAux_start_head :
    ∀ cs : List Char, punctAux false [] cs = [] ∨
      ∃ u t, punctAux false [] cs = u :: t ∧
        (isWS u = true ∨ isPunctN u = true ∨ cs.head? = some u) := by
  intro cs
  cases cs with
  | nil => left; rfl
  | cons c cs2 =>
    by_cases hw : isWS c
    · rcases punctAux_pend_head cs2 [c] (by simp) (by simpa using hw) with h | ⟨u, t, hu, hk⟩
      · left; simpa [punctAux, hw] using h
      · right
        refine ⟨u, t, ?_, by tauto⟩
        simpa [punctAux, hw] using hu
    · by_cases hp : isPunctN c
      · right
        exact ⟨c, ' ' :: punctAux true [] cs2, by simp [punctAux, hw, hp],
          Or.inr (Or.inl hp)⟩
      · right
        exact ⟨c, punctAux false [] cs2, by simp [punctAux, hw, hp],
          Or.inr (Or.inr rfl)⟩

lemma punctAux_chain (R : Char → Char → Prop)
    (hsp_l : ∀ y, R ' ' y) (hsp_r : ∀ x, R x ' ')
    (hws_l : ∀ a b, isWS a = true → R a b)
    (helse : ∀ c u, isWS c = false → isPunctN c = false →
      (isWS u = true ∨ isPunctN u = true) → R c u) :
    ∀ (cs pend : List Char) (afterP : Bool), (∀ x ∈ pend, isWS x = true) →
      List.Chain' R cs → List.Chain' R (punctAux afterP pend cs) := by
  intro cs
  induction cs with
  | nil =>
    intro pend afterP hpend _
    cases afterP with
    | true => simp [punctAux]
    | false =>
      simp only [punctAux, Bool.false_eq_true, if_false]
      exact chain'_allWS R hws_l pend.reverse
        (fun x hx => hpend x (List.mem_reverse.mp hx))
  | cons c cs ih =>
    intro pend afterP hpend hc
    have hc1 := (List.chain'_cons'.mp hc).1
    have hc2 := (List.chain'_cons'.mp hc).2
    by_cases hw : isWS c
    · cases afterP with
      | true =>
        simp only [punctAux, hw, if_true]
        exact ih [] true (by simp) hc2
      | false =>
        simp only [punctAux, hw, if_true, Bool.false_eq_true, if_false]
        refine ih (c :: pend) false ?_ hc2
        intro x hx
        rcases List.mem_cons.mp hx with hx | hx
        · subst hx; exact hw
        · exact hpend x hx
    · by_cases hp : isPunctN c
      · have heq : punctAux afterP pend (c :: cs) =
            c :: ' ' :: punctAux true [] cs := by
          simp [punctAux, hw, hp]
        rw [heq, List.chain'_cons']
        refine ⟨fun y hy => ?_, ?_⟩
        · simp at hy; subst hy; exact hsp_r c
        rw [List.chain'_cons']
        exact ⟨fun y _ => hsp_l y, ih [] true (by simp) hc2⟩
      · have heq : punctAux afterP pend (c :: cs) =
            (if afterP then [] else pend.reverse) ++ c :: punctAux false [] cs := by
          simp [punctAux, hw, hp]
        rw [heq, List.chain'_append]
        refine ⟨?_, ?_, ?_⟩
        · cases afterP with
          | true => simp
          | false =>
            simp only [Bool.false_eq_true, if_false]
            exact chain'_allWS R hws_l pend.reverse
              (fun x hx => hpend x (List.mem_reverse.mp hx))
        · rw [List.chain'_cons']
          refine ⟨fun y hy => ?_, ih [] false (by simp) hc2⟩
          rcases punctAux_start_head cs with h | ⟨u, t, hu, hk⟩
          · rw [h] at hy; simp at hy
          · rw [hu] at hy
            simp at hy
            rw [← hy]
            rcases hk with hk | hk | hk
            · exact helse c u (by simp [hw]) (by simp [hp]) (Or.inl hk)
            · exact helse c u (by simp [hw]) (by simp [hp]) (Or.inr hk)
            · exact hc1 u hk
        · intro x hx y hy
          have hxm : x ∈ (if afterP then [] else pend.reverse) :=
            List.mem_of_mem_getLast? hx
          cases afterP with
          | true => simp at hxm
          | false =>
            simp only [Bool.false_eq_true, if_false] at hxm
            exact hws_l x y (hpend x (List.mem_reverse.mp hxm))

lemma punctAux_rps :
    ∀ (cs pend : List Char) (afterP : Bool), (∀ x ∈ pend, isWS x = true) →
      Rps (punctAux afterP pend cs) := by
  intro cs
  induction cs with
  | nil =>
    intro pend afterP hpend
    cases afterP with
    | true => simp [punctAux, Rps]
    | false =>
      simp only [punctAux, Bool.false_eq_true, if_false]
      exact chain'_allWS _ (fun a b ha => by simp [ws_not_punct a ha]) pend.reverse
        (fun x hx => hpend x (List.mem_reverse.mp hx))
  | cons c cs ih =>
    intro pend afterP hpend
    by_cases hw : isWS c
    · cases afterP with
      | true =>
        simp only [punctAux, hw, if_true]
        exact ih [] true (by simp)
      | false =>
        simp only [punctAux, hw, if_true, Bool.false_eq_true, if_false]
        refine ih (c :: pend) false ?_
        intro x hx
        rcases List.mem_cons.mp hx with hx | hx
        · subst hx; exact hw
        · exact hpend x hx
    · by_cases hp : isPunctN c
      · have heq : punctAux afterP pend (c :: cs) =
            c :: ' ' :: punctAux true [] cs := by
          simp [punctAux, hw, hp]
        rw [heq, Rps, List.chain'_cons']
        refine ⟨fun y hy _ => by simpa using hy.symm, ?_⟩
        rw [List.chain'_cons']
        exact ⟨fun y _ h2 => absurd h2 (by decide), ih [] true (by simp)⟩
      · have heq : punctAux afterP pend (c :: cs) =
            (if afterP then [] else pend.reverse) ++ c :: punctAux false [] cs := by
          simp [punctAux, hw, hp]
        rw [heq, Rps, List.chain'_append]
        refine ⟨?_, ?_, ?_⟩
        · cases afterP with
          | true => simp
          | false =>
            simp only [Bool.false_eq_true, if_false]
            exact chain'_allWS _ (fun a b ha => by simp [ws_not_punct a ha])
              pend.reverse (fun x hx => hpend x (List.mem_reverse.mp hx))
        · rw [List.chain'_cons']
          exact ⟨fun y _ h2 => absurd h2 hp, ih [] false (by simp)⟩
        · intro x hx y _ h2
          have hxm : x ∈ (if afterP then [] else pend.reverse) :=
            List.mem_of_mem_getLast? hx
          cases afterP with
          | true => simp at hxm
          | false =>
            simp only [Bool.false_eq_true, if_false] at hxm
            exact absurd h2
              (by simp [ws_not_punct x (hpend x (List.mem_reverse.mp hxm))])

lemma chain'_dropWhile (R : Char → Char → Prop) (pr : Char → Bool) :
    ∀ l : List Char, List.Chain' R l → List.Chain' R (l.dropWhile pr) := by
  intro l
  induction l with
  | nil => intro _; simp
  | cons c cs ih =>
    intro hc
    rw [List.dropWhile_cons]
    by_cases h : pr c
    · rw [if_pos h]
      exact ih (List.chain'_cons'.mp hc).2
    · rw [if_neg h]
      exact hc

lemma chain'_stripWS (R : Char → Char → Prop) (l : List Char)
    (h : List.Chain' R l) : List.Chain' R (stripWS l) := by
  have h1 : List.Chain' R (l.dropWhile isWS) := chain'_dropWhile R isWS l h
  have h2 : List.Chain' (flip R) (l.dropWhile isWS).reverse := by
    rw [List.chain'_reverse]
    simpa [Function.flip_def] using h1
  have h3 := chain'_dropWhile (flip R) isWS _ h2
  unfold stripWS
  rw [List.chain'_reverse]
  simpa [Function.flip_def] using h3

lemma squeeze_false_head (l : List Char) :
    squeezeWS false l = [] ∨ (∃ t, squeezeWS false l = ' ' :: t) ∨
      (∃ u t, squeezeWS false l = u :: t ∧ l.head? = some u) := by
  cases l with
  | nil => left; rfl
  | cons c cs =>
    by_cases hw : isWS c
    · right; left
      exact ⟨squeezeWS true cs, by simp [squeezeWS, hw]⟩
    · right; right
      exact ⟨c, squeezeWS false cs, by simp [squeezeWS, hw], rfl⟩

lemma squeeze_chain (R : Char → Char → Prop) (hsp_l : ∀ y, R ' ' y)
    (hsp_r : ∀ x, R x ' ') :
    ∀ (l : List Char) (b : Bool), List.Chain' R l →
      List.Chain' R (squeezeWS b l) := by
  intro l
  induction l with
  | nil => intro b _; simp [squeezeWS]
  | cons c cs ih =>
    intro b hc
    have hc1 := (List.chain'_cons'.mp hc).1
    have hc2 := (List.chain'_cons'.mp hc).2
    by_cases hw : isWS c
    · cases b with
      | true =>
        simp only [squeezeWS, hw, if_true]
        exact ih true hc2
      | false =>
        simp only [squeezeWS, hw, if_true, Bool.false_eq_true, if_false]
        rw [List.chain'_cons']
        exact ⟨fun y _ => hsp_l y, ih true hc2⟩
    · have heq : squeezeWS b (c :: cs) = c :: squeezeWS false cs := by
        simp [squeezeWS, hw]
      rw [heq, List.chain'_cons']
      refine ⟨fun y hy => ?_, ih false hc2⟩
      rcases squeeze_false_head cs with h | ⟨t, ht⟩ | ⟨u, t, hu, hh⟩
      · rw [h] at hy; simp at hy
      · rw [ht] at hy; simp at hy; subst hy; exact hsp_r c
      · rw [hu] at hy; simp at hy; rw [← hy]; exact hc1 u hh

lemma SPA_mono : ∀ (l : List Char) (s : Bool), SPA false l → SPA s l := by
  intro l
  induction l with
  | nil => intro s _; trivial
  | cons a t _ =>
    intro s h
    cases t with
    | nil => trivial
    | cons b r =>
      obtain ⟨h1, h2⟩ := h
      exact ⟨fun hws hp => absurd (h1 hws hp) (by simp), h2⟩

lemma SPA_tail (s : Bool) (c : Char) (l : List Char) (h : SPA s (c :: l)) :
    SPA (isPunctN c) l := by
  cases l with
  | nil => trivial
  | cons b r => exact h.2

lemma SPA_cons_of (s : Bool) (c : Char) (l : List Char) (hnw : isWS c = false)
    (h : SPA (isPunctN c) l) : SPA s (c :: l) := by
  cases l with
  | nil => trivial
  | cons b r => exact ⟨fun hws _ => absurd hws (by simp [hnw]), h⟩

lemma SPA_cons_ws (s : Bool) (c : Char) (l : List Char) (hws : isWS c = true)
    (hd : ∀ u, l.head? = some u → isPunctN u = true → s = true)
    (h : SPA false l) : SPA s (c :: l) := by
  cases l with
  | nil => trivial
  | cons b r =>
    refine ⟨fun _ hp => hd b rfl hp, ?_⟩
    exact (ws_not_punct c hws).symm ▸ h

lemma SPA_allws : ∀ (l : List Char) (s : Bool),
    (∀ x ∈ l, isWS x = true) → SPA s l := by
  intro l
  induction l with
  | nil => intro s _; trivial
  | cons a t ih =>
    intro s hall
    refine SPA_cons_ws s a t (hall a (by simp)) ?_ ?_
    · intro u hu hp
      have hum : u ∈ t := by
        cases t with
        | nil => simp at hu
        | cons x r => simp at hu; simp [hu]
      exact absurd hp (by simp [ws_not_punct u (hall u (List.mem_cons_of_mem a hum))])
    · exact ih false (fun x hx => hall x (List.mem_cons_of_mem a hx))

lemma SPA_prepend_ws (l : List Char)
    (hl : ∀ u, l.head? = some u → isPunctN u = false) (h : SPA false l) :
    ∀ (run : List Char) (s : Bool), (∀ x ∈ run, isWS x = true) →
      SPA s (run ++ l) := by
  intro run
  induction run with
  | nil => intro s _; exact SPA_mono l s h
  | cons w rest ih =>
    intro s hrun
    rw [List.cons_append]
    refine SPA_cons_ws s w (rest ++ l) (hrun w (by simp)) ?_ ?_
    · intro u hu hp
      cases rest with
      | nil =>
        simp only [List.nil_append] at hu
        exact absurd hp (by simp [hl u hu])
      | cons x r =>
        simp at hu
        exact absurd hp
          (by simp [ws_not_punct u (by rw [← hu]; exact hrun x (by simp))])
    · exact ih false (fun x hx => hrun x (List.mem_cons_of_mem w hx))

lemma punctAux_sp :
    ∀ (cs pend : List Char) (afterP : Bool), (∀ x ∈ pend, isWS x = true) →
      SPA false (punctAux afterP pend cs) := by
  intro cs
  induction cs with
  | nil =>
    intro pend afterP hpend
    cases afterP with
    | true => trivial
    | false =>
      simp only [punctAux, Bool.false_eq_true, if_false]
      exact SPA_allws pend.reverse false
        (fun x hx => hpend x (List.mem_reverse.mp hx))
  | cons c cs ih =>
    intro pend afterP hpend
    by_cases hw : isWS c
    · cases afterP with
      | true =>
        simp only [punctAux, hw, if_true]
        exact ih [] true (by simp)
      | false =>
        simp only [punctAux, hw, if_true, Bool.false_eq_true, if_false]
        refine ih (c :: pend) false ?_
        intro x hx
        rcases List.mem_cons.mp hx with hx | hx
        · subst hx; exact hw
        · exact hpend x hx
    · by_cases hp : isPunctN c
      · have heq : punctAux afterP pend (c :: cs) =
            c :: ' ' :: punctAux true [] cs := by
          simp [punctAux, hw, hp]
        rw [heq]
        refine SPA_cons_of false c _ (by simp [hw]) ?_
        rw [hp]
        refine SPA_cons_ws true ' ' _ (by decide) (fun _ _ _ => rfl) ?_
        exact ih [] true (by simp)
      · have heq : punctAux afterP pend (c :: cs) =
            (if afterP then [] else pend.reverse) ++ c :: punctAux false [] cs := by
          simp [punctAux, hw, hp]
        rw [heq]
        have hflush : ∀ x ∈ (if afterP then [] else pend.reverse), isWS x = true := by
          cases afterP with
          | true => simp
          | false =>
            simp only [Bool.false_eq_true, if_false]
            exact fun x hx => hpend x (List.mem_reverse.mp hx)
        refine SPA_prepend_ws (c :: punctAux false [] cs) ?_ ?_ _ false hflush
        · intro u hu
          simp at hu
          rw [← hu]
          simpa using hp
        · refine SPA_cons_of false c _ (by simp [hw]) ?_
          have hc : isPunctN c = false := by simpa using hp
          rw [hc]
          exact ih [] false (by simp)

lemma SPA_dropWhileWS : ∀ l : List Char, SPA false l →
    SPA false (l.dropWhile isWS) := by
  intro l
  induction l with
  | nil => intro _; trivial
  | cons c cs ih =>
    intro h
    rw [List.dropWhile_cons]
    by_cases hw : isWS c
    · rw [if_pos hw]
      refine ih ?_
      have := SPA_tail false c cs h
      rwa [ws_not_punct c hw] at this
    · rw [if_neg hw]
      exact h

lemma SPA_append_left : ∀ (l1 : List Char) (s : Bool) (l2 : List Char),
    SPA s (l1 ++ l2) → SPA s l1 := by
  intro l1
  induction l1 with
  | nil => intro s l2 _; trivial
  | cons a t ih =>
    intro s l2 h
    cases t with
    | nil => trivial
    | cons b r =>
      rw [List.cons_append, List.cons_append] at h
      exact ⟨h.1, ih (isPunctN a) l2 (by rw [List.cons_append]; exact h.2)⟩

lemma SPA_strip (l : List Char) (h : SPA false l) : SPA false (stripWS l) := by
  have h1 := SPA_dropWhileWS l h
  have hd := strip_decomp l
  rw [hd] at h1
  exact SPA_append_left (stripWS l) false _ h1

lemma SPA_run : ∀ (cs : List Char) (c : Char) (s : Bool), isWS c = true →
    SPA s (c :: cs) → ∀ u, ((cs.dropWhile isWS).head? = some u) →
      isPunctN u = true → s = true := by
  intro cs
  induction cs with
  | nil => intro c s _ _ u hu; simp at hu
  | cons b t ih =>
    intro c s hws h u hu hp
    by_cases hb : isWS b
    · rw [List.dropWhile_cons, if_pos hb] at hu
      have h2 : SPA false (b :: t) := by
        have := SPA_tail s c (b :: t) h
        rwa [ws_not_punct c hws] at this
      exact absurd (ih b false hb h2 u hu hp) (by simp)
    · rw [List.dropWhile_cons, if_neg hb] at hu
      simp at hu
      obtain ⟨h1, _⟩ := h
      exact h1 hws (by rw [hu]; exact hp)

lemma sqTrue_drop : ∀ l : List Char,
    squeezeWS true l = squeezeWS false (l.dropWhile isWS) := by
  intro l
  induction l with
  | nil => rfl
  | cons c cs ih =>
    by_cases hw : isWS c
    · rw [List.dropWhile_cons, if_pos hw]
      simpa [squeezeWS, hw] using ih
    · rw [List.dropWhile_cons, if_neg hw]
      simp [squeezeWS, hw]

lemma lenDropWhile_le (p : Char → Bool) :
    ∀ l : List Char, (l.dropWhile p).length ≤ l.length := by
  intro l
  induction l with
  | nil => simp
  | cons c cs ih =>
    rw [List.dropWhile_cons]
    by_cases h : p c
    · rw [if_pos h]; exact le_trans ih (by simp)
    · rw [if_neg h]

lemma SPA_squeeze : ∀ (n : Nat) (l : List Char) (s : Bool), l.length ≤ n →
    SPA s l → SPA s (squeezeWS false l) := by
  intro n
  induction n with
  | zero =>
    intro l s hl h
    rw [List.length_eq_zero.mp (Nat.le_zero.mp hl)]
    trivial
  | succ n ih =>
    intro l s hl h
    cases l with
    | nil => trivial
    | cons c cs =>
      by_cases hw : isWS c
      · have heq : squeezeWS false (c :: cs) = ' ' :: squeezeWS true cs := by
          simp [squeezeWS, hw]
        rw [heq, sqTrue_drop]
        refine SPA_cons_ws s ' ' _ (by decide) ?_ ?_
        · intro u hu hp
          rcases squeeze_false_head (cs.dropWhile isWS) with h0 | ⟨t, ht⟩ | ⟨v, t, hv, hh⟩
          · rw [h0] at hu; simp at hu
          · rw [ht] at hu; simp at hu
            exact absurd hp (by rw [← hu]; decide)
          · rw [hv] at hu; simp at hu
            rw [← hu] at hp
            exact SPA_run cs c s hw h v hh hp
        · refine ih (cs.dropWhile isWS) false ?_ ?_
          · have h1 := lenDropWhile_le isWS cs
            have h2 : cs.length + 1 ≤ n + 1 := by simpa using hl
            omega
          · refine SPA_dropWhileWS cs ?_
            have := SPA_tail s c cs h
            rwa [ws_not_punct c hw] at this
      · have heq : squeezeWS false (c :: cs) = c :: squeezeWS false cs := by
          simp [squeezeWS, hw]
        rw [heq]
        refine SPA_cons_of s c _ (by simp [hw]) ?_
        refine ih cs (isPunctN c) (by simpa using hl) (SPA_tail s c cs h)

lemma noTrail_tail (x : Char) (xs : List Char) (h : noTrailWS (x :: xs)) :
    noTrailWS xs := by
  cases xs with
  | nil => intro u hu; simp at hu
  | cons d t => exact noTrail_cons x (d :: t) h (by simp)

lemma SpOnly_tail (x : Char) (xs : List Char) (h : SpOnly (x :: xs)) : SpOnly xs :=
  fun a ha => h a (List.mem_cons_of_mem x ha)

lemma eqStates (z : List Char)
    (hz : z = [] ∨ ∀ u, z.head? = some u → isWS u = false) :
    punctAux true [] z = punctAux false [] z := by
  cases z with
  | nil => rfl
  | cons c cs =>
    have hc : isWS c = false := by
      rcases hz with h | h
      · simp at h
      · exact h c rfl
    by_cases hp : isPunctN c
    · simp [punctAux, hc, hp]
    · simp [punctAux, hc, hp]

lemma punct_id_aux : ∀ (n : Nat) (z : List Char), z.length ≤ n →
    SpOnly z → NoDouble z → noTrailWS z → Rps z → SPA false z →
    punctAux false [] z = z ∨ punctAux false [] z = z ++ [' '] := by
  intro n
  induction n with
  | zero =>
    intro z hl _ _ _ _ _
    rw [List.length_eq_zero.mp (Nat.le_zero.mp hl)]
    left; rfl
  | succ n ih =>
    intro z hl hsp hnd hnt hrps hspa
    cases z with
    | nil => left; rfl
    | cons c cs =>
      by_cases hw : isWS c
      · cases cs with
        | nil => exact absurd (hnt c rfl) (by simp [hw])
        | cons d t =>
          have hd : isWS d = false := by
            have hpair := (List.chain'_cons'.mp hnd).1 d rfl
            cases hdd : isWS d
            · rfl
            · exact absurd ⟨hw, hdd⟩ hpair
          have hdp : isPunctN d = false := by
            obtain ⟨h1, _⟩ := hspa
            cases hpp : isPunctN d
            · rfl
            · exact absurd (h1 hw hpp) (by simp)
          have heq : punctAux false [] (c :: d :: t) =
              c :: d :: punctAux false [] t := by
            simp [punctAux, hw, hd, hdp]
          rw [heq]
          have hspa2 : SPA false t := by
            have s1 := SPA_tail false c (d :: t) hspa
            rw [ws_not_punct c hw] at s1
            have s2 := SPA_tail false d t s1
            rwa [hdp] at s2
          rcases ih t (by simp at hl; omega)
            (SpOnly_tail d t (SpOnly_tail c (d :: t) hsp))
            ((List.chain'_cons'.mp (List.chain'_cons'.mp hnd).2).2)
            (noTrail_tail d t (noTrail_tail c (d :: t) hnt))
            ((List.chain'_cons'.mp (List.chain'_cons'.mp hrps).2).2)
            hspa2 with hrec | hrec
          · left; rw [hrec]
          · right; rw [hrec]; simp
      · by_cases hp : isPunctN c
        · have hhead := (List.chain'_cons'.mp hrps).1
          cases cs with
          | nil =>
            right
            simp [punctAux, hw, hp]
          | cons e cs2 =>
            have he : e = ' ' := hhead e rfl hp
            subst he
            cases cs2 with
            | nil =>
              have : (c :: [' ']).getLast? = some ' ' := rfl
              exact absurd (hnt ' ' this) (by decide)
            | cons d t =>
              have hd : isWS d = false := by
                have hpair :=
                  (List.chain'_cons'.mp (List.chain'_cons'.mp hnd).2).1 d rfl
                cases hdd : isWS d
                · rfl
                · exact absurd ⟨by decide, hdd⟩ hpair
              have heq : punctAux false [] (c :: ' ' :: d :: t) =
                  c :: ' ' :: punctAux false [] (d :: t) := by
                have h1 : punctAux false [] (c :: ' ' :: d :: t) =
                    c :: ' ' :: punctAux true [] (' ' :: d :: t) := by
                  simp [punctAux, hw, hp]
                have h2 : punctAux true [] (' ' :: d :: t) =
                    punctAux true [] (d :: t) := by
                  simp only [punctAux, show isWS ' ' = true from by decide, if_true]
                have h3 := eqStates (d :: t) (Or.inr (fun u hu => by
                  simp at hu; rw [← hu]; exact hd))
                rw [h1, h2, h3]
              rw [heq]
              have hspa2 : SPA false (d :: t) := by
                have s1 := SPA_tail false c (' ' :: d :: t) hspa
                rw [hp] at s1
                have s2 := SPA_tail true ' ' (d :: t) s1
                rwa [show isPunctN ' ' = false from by decide] at s2
              rcases ih (d :: t) (by simp at hl ⊢; omega)
                (SpOnly_tail ' ' (d :: t) (SpOnly_tail c (' ' :: d :: t) hsp))
                ((List.chain'_cons'.mp (List.chain'_cons'.mp hnd).2).2)
                (noTrail_tail ' ' (d :: t) (noTrail_tail c (' ' :: d :: t) hnt))
                ((List.chain'_cons'.mp (List.chain'_cons'.mp hrps).2).2)
                hspa2 with hrec | hrec
              · left; rw [hrec]
              · right; rw [hrec]; simp
        · have heq : punctAux false [] (c :: cs) = c :: punctAux false [] cs := by
            simp [punctAux, hw, hp]
          rw [heq]
          have hspa2 : SPA false cs := by
            have s1 := SPA_tail false c cs hspa
            rwa [show isPunctN c = false from by simpa using hp] at s1
          rcases ih cs (by simpa using hl)
            (SpOnly_tail c cs hsp)
            ((List.chain'_cons'.mp hnd).2)
            (noTrail_tail c cs hnt)
            ((List.chain'_cons'.mp hrps).2)
            hspa2 with hrec | hrec
          · left; rw [hrec]
          · right; rw [hrec]; simp

lemma strip_append_space (y : List Char) (h1 : noLeadWS y) (h2 : noTrailWS y) :
    stripWS (y ++ [' ']) = y := by
  cases y with
  | nil => rfl
  | cons c t =>
    have hc : isWS c = false := h1 c rfl
    unfold stripWS
    rw [List.cons_append, List.dropWhile_cons, if_neg (by simp [hc])]
    have hrev : (c :: (t ++ [' '])).reverse = ' ' :: (c :: t).reverse := by
      simp
    rw [hrev, List.dropWhile_cons, if_pos (by decide)]
    have hr : (c :: t).reverse.dropWhile isWS = (c :: t).reverse := by
      cases hy : (c :: t).reverse with
      | nil => rfl
      | cons u r =>
        have hu : (c :: t).getLast? = some u := by
          rw [← List.head?_reverse, hy]; rfl
        rw [List.dropWhile_cons, if_neg (by simp [h2 u hu])]
    rw [hr, List.reverse_reverse]

lemma collapse_punct_id (y : List Char) (hcoll : collNormP y) (hrps : Rps y)
    (hspa : SPA false y) : collapseWS (punctSub y) = y := by
  obtain ⟨h1, h2, h3, h4⟩ := hcoll
  rcases punct_id_aux y.length y le_rfl h3 h4 h2 hrps hspa with h | h
  · have hps : punctSub y = y := h
    rw [hps]
    exact collapse_id y ⟨h1, h2, h3, h4⟩
  · have hps : punctSub y = y ++ [' '] := h
    rw [hps]
    unfold collapseWS
    rw [strip_append_space y h1 h2, (squeeze_id y h3 h4).1]

lemma upper_lower_disjoint : ∀ x, ¬(isUpperAZ x = true ∧ isLowerAZ x = true) := by
  intro x h
  obtain ⟨h1, h2⟩ := h
  simp [isUpperAZ, Bool.and_eq_true] at h1
  simp [isLowerAZ, Bool.and_eq_true] at h2
  have : 'a' ≤ 'Z' := le_trans h2.1 h1.2
  exact absurd this (by decide)

lemma upper_digit_disjoint : ∀ x, ¬(isUpperAZ x = true ∧ isDigit09 x = true) := by
  intro x h
  obtain ⟨h1, h2⟩ := h
  simp [isUpperAZ, Bool.and_eq_true] at h1
  simp [isDigit09, Bool.and_eq_true] at h2
  have : 'A' ≤ '9' := le_trans h1.1 h2.2
  exact absurd this (by decide)

lemma digit_lower_disjoint : ∀ x, ¬(isDigit09 x = true ∧ isLowerAZ x = true) := by
  intro x h
  obtain ⟨h1, h2⟩ := h
  simp [isDigit09, Bool.and_eq_true] at h1
  simp [isLowerAZ, Bool.and_eq_true] at h2
  have : 'a' ≤ '9' := le_trans h2.1 h1.2
  exact absurd this (by decide)

lemma NA_through (p q : Char → Bool)
    (hpsp : p ' ' = false) (hqsp : q ' ' = false)
    (hpws : ∀ a, isWS a = true → p a = false)
    (hqws : ∀ a, isWS a = true → q a = false)
    (hqpu : ∀ a, isPunctN a = true → q a = false) :
    (∀ (r s : Char → Bool) (l : List Char), NA p q l → NA p q (subPair r s l)) ∧
    (∀ l, NA p q l → NA p q (punctSub l)) ∧
    (∀ l, NA p q l → NA p q (collapseWS l)) := by
  have hsp_l : ∀ y, ¬(p ' ' = true ∧ q y = true) := by
    intro y h; rw [hpsp] at h; exact absurd h.1 (by simp)
  have hsp_r : ∀ x, ¬(p x = true ∧ q ' ' = true) := by
    intro x h; rw [hqsp] at h; exact absurd h.2 (by simp)
  have hws_l : ∀ a b, isWS a = true → ¬(p a = true ∧ q b = true) := by
    intro a b ha h; rw [hpws a ha] at h; exact absurd h.1 (by simp)
  have helse : ∀ c u, isWS c = false → isPunctN c = false →
      (isWS u = true ∨ isPunctN u = true) → ¬(p c = true ∧ q u = true) := by
    intro c u _ _ hu h
    rcases hu with hu | hu
    · rw [hqws u hu] at h; exact absurd h.2 (by simp)
    · rw [hqpu u hu] at h; exact absurd h.2 (by simp)
  refine ⟨fun r s l h => subPair_chain _ hsp_l hsp_r r s l h,
    fun l h => punctAux_chain _ hsp_l hsp_r hws_l helse l [] false (by simp) h,
    fun l h => squeeze_chain _ hsp_l hsp_r _ false (chain'_stripWS _ _ h)⟩

/-- C8.  `normalize_text` is idempotent: applying it twice gives the same
    result as applying it once, for every input string.  The proof shows
    that each of the six substitution passes is the identity on the output
    of a first `normalize_text` run: the output is collapse-normal (no
    leading/trailing whitespace, single plain spaces only), contains no
    lowercase-uppercase, digit-uppercase or lowercase-digit adjacency, and
    every punctuation mark is followed by a space (or ends the text) with
    spaces before punctuation occurring only after punctuation. -/
theorem normalize_text_idempotent (cs : List Char) :
    normalize_text (normalize_text cs) = normalize_text cs := by
  by_cases hcs : cs = []
  · subst hcs; rfl
  · have hy : normalize_text cs = collapseWS (punctSub (subPair isLowerAZ isDigit09
        (subPair isDigit09 isUpperAZ (subPair isLowerAZ isUpperAZ (collapseWS cs))))) := by
      rw [normalize_text, if_neg hcs]
    by_cases hynil : normalize_text cs = []
    · rw [hynil]
      rfl
    · rw [normalize_text, if_neg hynil]
      have hcoll : collNormP (normalize_text cs) := by
        rw [hy]; exact collapse_collNorm _
      have f1 : collapseWS (normalize_text cs) = normalize_text cs :=
        collapse_id _ hcoll
      rw [f1]
      have t1 := NA_through isLowerAZ isUpperAZ (by decide) (by decide)
        (fun a ha => by
          cases h : isLowerAZ a
          · rfl
          · exact absurd ha (by simp [lower_not_ws a h]))
        (fun a ha => by
          cases h : isUpperAZ a
          · rfl
          · exact absurd ha (by simp [upper_not_ws a h]))
        (fun a ha => punct_not_upper a ha)
      have t2 := NA_through isDigit09 isUpperAZ (by decide) (by decide)
        (fun a ha => by
          cases h : isDigit09 a
          · rfl
          · exact absurd ha (by simp [digit_not_ws a h]))
        (fun a ha => by
          cases h : isUpperAZ a
          · rfl
          · exact absurd ha (by simp [upper_not_ws a h]))
        (fun a ha => punct_not_upper a ha)
      have t3 := NA_through isLowerAZ isDigit09 (by decide) (by decide)
        (fun a ha => by
          cases h : isLowerAZ a
          · rfl
          · exact absurd ha (by simp [lower_not_ws a h]))
        (fun a ha => by
          cases h : isDigit09 a
          · rfl
          · exact absurd ha (by simp [digit_not_ws a h]))
        (fun a ha => punct_not_digit a ha)
      have na1 : NA isLowerAZ isUpperAZ (normalize_text cs) := by
        rw [hy]
        exact t1.2.2 _ (t1.2.1 _ (t1.1 _ _ _ (t1.1 _ _ _
          (subPair_noadj _ _ (by decide) (by decide) upper_lower_disjoint _))))
      have na2 : NA isDigit09 isUpperAZ (normalize_text cs) := by
        rw [hy]
        exact t2.2.2 _ (t2.2.1 _ (t2.1 _ _ _
          (subPair_noadj _ _ (by decide) (by decide) upper_digit_disjoint _)))
      have na3 : NA isLowerAZ isDigit09 (normalize_text cs) := by
        rw [hy]
        exact t3.2.2 _ (t3.2.1 _
          (subPair_noadj _ _ (by decide) (by decide) digit_lower_disjoint _))
      have hrps : Rps (normalize_text cs) := by
        rw [hy]
        refine squeeze_chain _ (fun y h => absurd h (by decide)) (fun x _ => rfl)
          _ false (chain'_stripWS _ _ ?_)
        exact punctAux_rps _ [] false (by simp)
      have hspa : SPA false (normalize_text cs) := by
        rw [hy]
        refine SPA_squeeze _ _ false le_rfl (SPA_strip _ ?_)
        exact punctAux_sp _ [] false (by simp)
      rw [subPair_id isLowerAZ isUpperAZ _ na1, subPair_id isDigit09 isUpperAZ _ na2,
        subPair_id isLowerAZ isDigit09 _ na3]
      exact collapse_punct_id _ hcoll hrps hspa

end MTGateway
